import Mathlib

/-!
Verification of the `tree` package: a plain (unbalanced) binary search tree
with parent pointers, a caller-supplied strict comparator, insertion,
three-case deletion via `transplant`, parent-pointer based successor and
predecessor traversal, in-order serialization, and sequential/randomized
bulk initialization.

Embedding notes.  Go's `Node` is a heap cell `{val, parent, left, right}`.
The `left`/`right` pointers are the owning edges, so the owned structure is
an inductive binary tree.  To keep the pointer-level content verifiable we
carry in each node:
  * `id : Nat` — the node's identity (its address; fresh ids are produced
    by an allocation counter in the tree state), and
  * `pid : Option Nat` — the *stored* `parent` pointer, written exactly
    where the Go code writes `.parent`.
Parent consistency is then a real theorem: each node's stored `pid` equals
the `id` of its structural parent.  Pointer equality of nodes is rendered
as equality of `id`s, and the `nil` pointer as `leaf`/`none`.  The
comparator `lessFn` stored in `Tree` and in every `Node` is passed as an
explicit function parameter `less` (a function-valued field would make the
state not decidably comparable, and all nodes of one tree share the same
comparator anyway).
-/

/-- One cell of the binary search tree: Go's `Node` struct with fields
`val`, `parent` (the stored back-pointer, as `pid`), `left`, `right`,
together with the node's own identity `id` standing for its address. -/
inductive PT (α : Type) : Type where
  | leaf : PT α
  | node (id : Nat) (val : α) (pid : Option Nat) (left : PT α) (right : PT α) : PT α
deriving DecidableEq, Repr

namespace PT

/-- In-order sequence of the values stored in the (sub)tree. -/
def inorder : PT α → List α
  | leaf => []
  | node _ v _ l r => inorder l ++ v :: inorder r

/-- In-order sequence of the node identities of the (sub)tree. -/
def ids : PT α → List Nat
  | leaf => []
  | node i _ _ l r => ids l ++ i :: ids r

/-- The value at the root of the subtree, if any. -/
def rootVal : PT α → Option α
  | leaf => none
  | node _ v _ _ _ => some v

/-- The identity of the root node of the subtree, if any. -/
def rootId : PT α → Option Nat
  | leaf => none
  | node i _ _ _ _ => some i

/-- The stored parent pointer of the root node of the subtree, if any. -/
def rootPid : PT α → Option (Option Nat)
  | leaf => none
  | node _ _ p _ _ => some p

/-- Every value in the subtree satisfies `p`. -/
def allB (p : α → Bool) : PT α → Bool
  | leaf => true
  | node _ v _ l r => p v && allB p l && allB p r

/-- The binary-search-tree invariant under the comparator `less`: at every
node, all values to the left are strictly less and all values to the right
are strictly greater. -/
def isBST (less : α → α → Bool) : PT α → Bool
  | leaf => true
  | node _ v _ l r =>
      allB (fun w => less w v) l && allB (fun w => less v w) r &&
      isBST less l && isBST less r

/-- Parent consistency: the root of the subtree stores `pp` as its parent
pointer, and recursively every child stores its parent's identity. -/
def parentOK (pp : Option Nat) : PT α → Bool
  | leaf => true
  | node i _ p l r => decide (p = pp) && parentOK (some i) l && parentOK (some i) r

/-- Go `Node.Find`: descend from this node comparing with `lessFn`; return
the node holding a comparator-equal value, or `nil`. -/
def Find (less : α → α → Bool) : PT α → α → Option (PT α)
  | leaf, _ => none
  | node i w p l r, v =>
      if less v w then Find less l v
      else if less w v then Find less r v
      else some (node i w p l r)

/-- Go `Node.Contains`: `t.Find(v) != nil`. -/
def Contains (less : α → α → Bool) (t : PT α) (v : α) : Bool :=
  (Find less t v).isSome

/-- Go `Node.Min`: follow left children while one exists; `nil` on `nil`. -/
def Min : PT α → Option (PT α)
  | leaf => none
  | node i v p l r =>
      match l with
      | leaf => some (node i v p l r)
      | node a b c d e => Min (node a b c d e)

/-- Go `Node.Max`: follow right children while one exists; `nil` on `nil`. -/
def Max : PT α → Option (PT α)
  | leaf => none
  | node i v p l r =>
      match r with
      | leaf => some (node i v p l r)
      | node a b c d e => Max (node a b c d e)

end PT

/-- Go `maxInt`: the greater of two `int`s. -/
def maxInt (a b : Int) : Int :=
  if a < b then b else a

namespace PT

/-- Go `Node.Height`: 0 for `nil`, otherwise `1 + maxInt(left, right)`. -/
def Height : PT α → Int
  | leaf => 0
  | node _ _ _ l r => 1 + maxInt (Height l) (Height r)

end PT

namespace PT

/-- Rewrite the stored parent pointer of the root node of a subtree.  This
is the `v.parent = u.parent` (and the later `x.parent = s`) write of the Go
code: the structural move itself is expressed by where the subtree is
placed, and this records the accompanying pointer-field update. -/
def setRootPid (pp : Option Nat) : PT α → PT α
  | leaf => leaf
  | node i v _ l r => node i v pp l r

/-- The effect of `t.transplant(s, s.right)` where `s` is the leftmost node
of this subtree: the leftmost node is unlinked and replaced by its right
child, whose stored parent pointer is set to `s`'s stored parent pointer. -/
def removeLeftmost : PT α → PT α
  | leaf => leaf
  | node _ _ p leaf r => setRootPid p r
  | node i v p (node a b c d e) r => node i v p (removeLeftmost (node a b c d e)) r

/-- Go `Tree.removeNode` at a node `n = {id := i, val := v, pid := p,
left := l, right := r}` (the caller guarantees `n != nil`), written on the
owned structure.  The three branches are the source's: if a child is
absent, `transplant` the other child into `n`'s slot (its parent pointer
becomes `p`); otherwise locate the in-order successor `s = n.right.Min()`,
and the pointer-identity test `s.parent != n` is rendered as `s.pid ≠ some i`.
In that case `transplant(s, s.right)` runs first (`removeLeftmost`), then
`n.right` is attached as `s.right` with its parent pointer set to `s`; in
both sub-cases `transplant(n, s)` gives `s` parent pointer `p`, and `n.left`
is attached as `s.left` with its parent pointer set to `s`. -/
def delRoot : Nat → α → Option Nat → PT α → PT α → PT α
  | _, _, p, leaf, r => setRootPid p r
  | _, _, p, node a b c d e, leaf => setRootPid p (node a b c d e)
  | i, _, p, node a b c d e, node f g h j k =>
      match Min (node f g h j k) with
      | none => leaf
      | some leaf => leaf
      | some (node si sv sp _ sr) =>
          if sp ≠ some i then
            node si sv p (setRootPid (some si) (node a b c d e))
              (setRootPid (some si) (removeLeftmost (node f g h j k)))
          else
            node si sv p (setRootPid (some si) (node a b c d e)) sr

/-- Removal of the node holding a value comparator-equal to `v`: the
descent retraces exactly the comparisons `Tree.Find` made to reach the
node `Tree.Delete` passes to `removeNode`, and `delRoot` splices it out. -/
def delFix (less : α → α → Bool) (v : α) : PT α → PT α
  | leaf => leaf
  | node i w p l r =>
      if less v w then node i w p (delFix less v l) r
      else if less w v then node i w p l (delFix less v r)
      else delRoot i w p l r

/-- Go `Tree.Insert`'s descent: `fresh` is the address the allocator will
give the new node and `pp` the identity of the last non-nil node visited
(the Go loop's `n`).  Returns the updated subtree, whether a node was
created, and the returned node (the Go result `*Node`). -/
def insFix (less : α → α → Bool) (v : α) (fresh : Nat) :
    Option Nat → PT α → PT α × Bool × PT α
  | pp, leaf =>
      let z := node fresh v pp leaf leaf
      (z, true, z)
  | _, node i w p l r =>
      if less v w then
        let res := insFix less v fresh (some i) l
        (node i w p res.1 r, res.2.1, res.2.2)
      else if less w v then
        let res := insFix less v fresh (some i) r
        (node i w p l res.1, res.2.1, res.2.2)
      else (node i w p l r, false, node i w p l r)

/-- The identity of the last non-nil node visited by the `Insert` descent
(the value of the Go loop variable `n` when the descent reaches `nil`). -/
def lastV (less : α → α → Bool) (v : α) : PT α → Option Nat → Option Nat
  | leaf, acc => acc
  | node i w _ l r, _ =>
      if less v w then lastV less v l (some i)
      else if less w v then lastV less v r (some i)
      else some i

end PT

/-- Direction taken at one step of a descent from the root. -/
inductive Dir : Type where
  | L : Dir
  | R : Dir
deriving DecidableEq, Repr

namespace PT

/-- The subtree rooted at the node a path of directions leads to. -/
def subAt : PT α → List Dir → Option (PT α)
  | t, [] => some t
  | leaf, _ :: _ => none
  | node _ _ _ l _, Dir.L :: ds => subAt l ds
  | node _ _ _ _ r, Dir.R :: ds => subAt r ds

/-- Replace the subtree a path leads to (used to state where `Insert`
attaches the newly created node). -/
def graftAt : PT α → List Dir → PT α → PT α
  | _, [], z => z
  | leaf, _ :: _, _ => leaf
  | node i w p l r, Dir.L :: ds, z => node i w p (graftAt l ds z) r
  | node i w p l r, Dir.R :: ds, z => node i w p l (graftAt r ds z)

/-- The path the `Find`-style descent for `v` takes until it reaches `nil`
(or the comparator-equal node). -/
def descPath (less : α → α → Bool) (v : α) : PT α → List Dir
  | leaf => []
  | node _ w _ l r =>
      if less v w then Dir.L :: descPath less v l
      else if less w v then Dir.R :: descPath less v r
      else []

end PT

/-- Go `Tree`: the root pointer and the size counter.  The extra `fresh`
field models the allocator: it is the next unused node address, so that
ids created by `Insert` are genuinely new.  The stored `lessFn` is passed
to the operations as an explicit parameter instead. -/
structure GoTree (α : Type) : Type where
  root : PT α
  size : Int
  fresh : Nat
deriving DecidableEq, Repr

namespace GoTree

/-- Go `New` (and the zero `Tree`): empty root, size 0. -/
def New : GoTree α := ⟨PT.leaf, 0, 0⟩

/-- Go `Tree.Insert`: descend tracking the last non-nil node, return the
existing node unchanged on a comparator-equal hit, otherwise attach a
fresh node there (as root if the tree was empty) and increment `size`. -/
def Insert (less : α → α → Bool) (T : GoTree α) (v : α) : GoTree α × PT α :=
  let res := PT.insFix less v T.fresh none T.root
  if res.2.1 then (⟨res.1, T.size + 1, T.fresh + 1⟩, res.2.2)
  else (⟨res.1, T.size, T.fresh⟩, res.2.2)

/-- Go `Tree.Find`: delegate to the root node's `Find`. -/
def Find (less : α → α → Bool) (T : GoTree α) (v : α) : Option (PT α) :=
  PT.Find less T.root v

/-- Go `Tree.Contains`: `t.root.Find(v) != nil`. -/
def Contains (less : α → α → Bool) (T : GoTree α) (v : α) : Bool :=
  (PT.Find less T.root v).isSome

/-- Go `Tree.Min`. -/
def Min (T : GoTree α) : Option (PT α) := PT.Min T.root

/-- Go `Tree.Max`. -/
def Max (T : GoTree α) : Option (PT α) := PT.Max T.root

/-- Go `Tree.Height`. -/
def Height (T : GoTree α) : Int := PT.Height T.root

/-- Go `Tree.Len`. -/
def Len (T : GoTree α) : Int := T.size

/-- Go `Tree.Root`. -/
def Root (T : GoTree α) : PT α := T.root

/-- Go `Tree.Delete`: `Find` the node; if present remove it via
`removeNode` (which decrements `size`) and return `true`, else `false`. -/
def Delete (less : α → α → Bool) (T : GoTree α) (v : α) : GoTree α × Bool :=
  match PT.Find less T.root v with
  | some _ => (⟨PT.delFix less v T.root, T.size - 1, T.fresh⟩, true)
  | none => (T, false)

/-- Go `Tree.Init`: insert the elements of `vs` in the given order. -/
def Init (less : α → α → Bool) (T : GoTree α) (vs : List α) : GoTree α :=
  vs.foldl (fun t v => (Insert less t v).1) T

/-- The loop of Go `Tree.RandInit`, counting `i` down from `n-1` to `0`
with fuel `k = i + 1`: draw `r = rs i` (modeling `rand.Intn(i+1)`), insert
`vs[idx[r]]`, swap `idx[r]` and `idx[i]`, continue.  Out-of-range indexing
(a Go panic, impossible for an in-range randomness source) is `none`. -/
def randLoop (less : α → α → Bool) (rs : Nat → Nat) (vs : List α) :
    GoTree α → List Nat → Nat → Option (GoTree α)
  | T, _, 0 => some T
  | T, idx, k + 1 =>
      (idx[rs k]?).bind (fun j =>
        (vs[j]?).bind (fun v =>
          (idx[k]?).bind (fun jk =>
            randLoop less rs vs (Insert less T v).1
              ((idx.set (rs k) jk).set k j) k)))

/-- Go `Tree.RandInit`: build `idx = [0, …, n-1]` and run the shuffled
insertion loop, where `rs i` is the random draw `rand.Intn(i+1)` consumed
at step `i`. -/
def RandInit (less : α → α → Bool) (T : GoTree α) (vs : List α)
    (rs : Nat → Nat) : Option (GoTree α) :=
  randLoop less rs vs T (List.range vs.length) vs.length

end GoTree

namespace PT

/-- The closure `walk` inside Go `Node.String`: append, in order, each
value's rendering (`fmt.Fprintf "%v "`) followed by one space.  The byte
buffer is modeled as a list of characters and the host formatting `%v` as
a caller-supplied rendering function `fm`. -/
def walkChars (fm : α → List Char) : PT α → List Char
  | leaf => []
  | node _ v _ l r => walkChars fm l ++ (fm v ++ [' ']) ++ walkChars fm r

/-- Go `bytes.Buffer.Truncate`: keep the first `n` bytes; a negative `n`
or one beyond the length panics, modeled as `none`. -/
def trunc (buf : List Char) (n : Int) : Option (List Char) :=
  if 0 ≤ n ∧ n ≤ buf.length then some (buf.take n.toNat) else none

/-- Go `Node.String`: write `"["`; if the receiver is non-nil, walk the
subtree and truncate the trailing separator away; write `"]"`.  The result
is `none` exactly when the truncation would panic. -/
def goString (fm : α → List Char) (t : PT α) : Option (List Char) :=
  match t with
  | leaf => some (['['] ++ [']'])
  | node i v p l r =>
      let buf := ['['] ++ walkChars fm (node i v p l r)
      (trunc buf ((buf.length : Int) - 1)).map (fun b => b ++ [']'])

/-- The path from a node down to the minimum of its subtree (the positions
`Min` walks through). -/
def leftSpine : PT α → List Dir
  | leaf => []
  | node _ _ _ leaf _ => []
  | node _ _ _ (node a b c d e) _ => Dir.L :: leftSpine (node a b c d e)

/-- The path from a node down to the maximum of its subtree (the positions
`Max` walks through). -/
def rightSpine : PT α → List Dir
  | leaf => []
  | node _ _ _ _ leaf => []
  | node _ _ _ _ (node a b c d e) => Dir.R :: rightSpine (node a b c d e)

/-- The parent-pointer climb of Go `Node.Next` (`for p != nil && n == p.right`),
on the reversed path of the current node: moving to the parent drops the
last direction, and `n == p.right` holds exactly when that direction is
`R`; when the loop stops at `nil` the answer is `none`. -/
def climbR : List Dir → Option (List Dir)
  | [] => none
  | Dir.R :: ds => climbR ds
  | Dir.L :: ds => some ds

/-- The parent-pointer climb of Go `Node.Prev` (`for p != nil && n == p.left`),
symmetric to `climbR`. -/
def climbL : List Dir → Option (List Dir)
  | [] => none
  | Dir.L :: ds => climbL ds
  | Dir.R :: ds => some ds

/-- Go `Node.Next` on the node at path `p` of `t`, as the path of the node
it returns: if a right child exists, its `Min`; otherwise climb parent
pointers while the current node is its parent's right child.  For
consistent parent pointers (the situation of the spec's invariant) moving
to the parent is exactly dropping the last direction of the path. -/
def nextPath (t : PT α) (p : List Dir) : Option (List Dir) :=
  match subAt t p with
  | none => none
  | some leaf => none
  | some (node _ _ _ _ leaf) => (climbR p.reverse).map List.reverse
  | some (node _ _ _ _ (node a b c d e)) =>
      some (p ++ Dir.R :: leftSpine (node a b c d e))

/-- Go `Node.Prev` on the node at path `p` of `t`, symmetric to
`nextPath`: left child's `Max`, else climb while current is its parent's
left child. -/
def prevPath (t : PT α) (p : List Dir) : Option (List Dir) :=
  match subAt t p with
  | none => none
  | some leaf => none
  | some (node _ _ _ leaf _) => (climbL p.reverse).map List.reverse
  | some (node _ _ _ (node a b c d e) _) =>
      some (p ++ Dir.L :: rightSpine (node a b c d e))

/-- The paths of all nodes of the tree, in in-order sequence. -/
def inPaths : PT α → List (List Dir)
  | leaf => []
  | node _ _ _ l r =>
      (inPaths l).map (fun p => Dir.L :: p) ++ [[]] ++
      (inPaths r).map (fun p => Dir.R :: p)

/-- Repeatedly call a step function (`nextPath` or `prevPath`) from a
starting position, recording the value at each node visited, with enough
fuel; the iteration stops when the step yields `nil`. -/
def iterVals (t : PT α) (step : PT α → List Dir → Option (List Dir)) :
    Option (List Dir) → Nat → List (Option α)
  | _, 0 => []
  | none, _ + 1 => []
  | some p, k + 1 =>
      ((subAt t p).bind rootVal) :: iterVals t step (step t p) k

end PT

/-- One mutating operation on a tree. -/
inductive Op (α : Type) : Type where
  | insv (v : α) : Op α
  | delv (v : α) : Op α
  | initv (vs : List α) : Op α
  | randv (vs : List α) (rs : Nat → Nat) : Op α

/-- Run one operation. -/
def applyOp (less : α → α → Bool) (T : GoTree α) : Op α → Option (GoTree α)
  | Op.insv v => some (GoTree.Insert less T v).1
  | Op.delv v => some (GoTree.Delete less T v).1
  | Op.initv vs => some (GoTree.Init less T vs)
  | Op.randv vs rs => GoTree.RandInit less T vs rs

/-- Run a sequence of operations. -/
def applyOps (less : α → α → Bool) : GoTree α → List (Op α) → Option (GoTree α)
  | T, [] => some T
  | T, o :: os => (applyOp less T o).bind (fun T2 => applyOps less T2 os)

/-- The representation invariant of a tree state: the BST ordering, parent
consistency from a nil root parent, distinct node identities all below the
allocation counter, and the size field equal to the number of reachable
nodes. -/
@[reducible] def TreeInv (less : α → α → Bool) (T : GoTree α) : Prop :=
  PT.isBST less T.root = true ∧
  PT.parentOK none T.root = true ∧
  (PT.ids T.root).Nodup ∧
  (∀ j ∈ PT.ids T.root, j < T.fresh) ∧
  T.size = ((PT.inorder T.root).length : Int)

/-- The comparator contract the package relies on: a strict total order
whose incomparability is equality (`less` is the spec's strict less-than
predicate with self-consistent ties). -/
structure LessOK (less : α → α → Bool) : Prop where
  asymm : ∀ a b, less a b = true → less b a = false
  lt_trans : ∀ a b c, less a b = true → less b c = true → less a c = true
  conn : ∀ a b, less a b = false → less b a = false → a = b

/-- The integer comparator used by the concrete witnesses. -/
def ltInt (a b : Int) : Bool := decide (a < b)

/-- A right-spine chain listing `(id, value)` pairs top to bottom, the
shape `Init` produces on strictly ascending input. -/
def rightChain : List (Nat × α) → Option Nat → PT α
  | [], _ => PT.leaf
  | (k, v) :: ws, pp => PT.node k v pp PT.leaf (rightChain ws (some k))

/-- Rendering function for the integer witnesses (Go's `%v`). -/
def fmtInt (i : Int) : List Char := (toString i).toList

/-- The first test fixture of the package's test file, inserted
sequentially with the ascending integer comparator. -/
def exT1 : GoTree Int := GoTree.Init ltInt GoTree.New [5, 2, 7, 3, 1, 6, 9, 4, 8, 2, 1, 8]

/-- Go `Tree.String`: delegate to the root node's `String`. -/
def GoTree.goString (fm : α → List Char) (T : GoTree α) : Option (List Char) :=
  PT.goString fm T.root

/-- Consecutive-step predicate: each position in the list steps (via
`nextPath` or `prevPath`) to the next one, and the last steps to `tgt`. -/
def chainTo (t : PT α) (step : PT α → List Dir → Option (List Dir)) :
    List (List Dir) → Option (List Dir) → Prop
  | [], _ => True
  | [p], tgt => step t p = tgt
  | p :: q :: rest, tgt => step t p = some q ∧ chainTo t step (q :: rest) tgt

/-- A concrete operation sequence exercising insertion, deletion and both
initialization strategies. -/
def opsC1 : List (Op Int) :=
  [Op.insv 5, Op.insv 2, Op.delv 5, Op.initv [7], Op.randv [9, 8] (fun _ => 0)]

/-- The tree state `opsC1` reaches from the empty tree. -/
def resC1 : GoTree Int := (applyOps ltInt GoTree.New opsC1).getD GoTree.New

/-! Basic structural lemmas. -/

theorem PT.inorder_setRootPid (pp : Option Nat) (t : PT α) :
    PT.inorder (PT.setRootPid pp t) = PT.inorder t := by
  cases t <;> simp [PT.setRootPid, PT.inorder]

theorem PT.ids_setRootPid (pp : Option Nat) (t : PT α) :
    PT.ids (PT.setRootPid pp t) = PT.ids t := by
  cases t <;> simp [PT.setRootPid, PT.ids]

theorem PT.allB_setRootPid (p : α → Bool) (pp : Option Nat) (t : PT α) :
    PT.allB p (PT.setRootPid pp t) = PT.allB p t := by
  cases t <;> simp [PT.setRootPid, PT.allB]

theorem PT.isBST_setRootPid (less : α → α → Bool) (pp : Option Nat) (t : PT α) :
    PT.isBST less (PT.setRootPid pp t) = PT.isBST less t := by
  cases t <;> simp [PT.setRootPid, PT.isBST, PT.allB_setRootPid]

theorem PT.parentOK_setRootPid {pp' : Option Nat} (pp : Option Nat) {t : PT α}
    (h : PT.parentOK pp' t = true) : PT.parentOK pp (PT.setRootPid pp t) = true := by
  cases t with
  | leaf => simp [PT.setRootPid, PT.parentOK]
  | node i v p l r =>
    simp only [PT.setRootPid, PT.parentOK, Bool.and_eq_true, decide_eq_true_eq] at h ⊢
    exact ⟨⟨by trivial, h.1.2⟩, h.2⟩

theorem PT.allB_iff (p : α → Bool) (t : PT α) :
    PT.allB p t = true ↔ ∀ x ∈ PT.inorder t, p x = true := by
  induction t with
  | leaf => simp [PT.allB, PT.inorder]
  | node i v pp l r ihl ihr =>
    simp only [PT.allB, PT.inorder, Bool.and_eq_true, ihl, ihr, List.mem_append,
      List.mem_cons]
    constructor
    · rintro ⟨⟨hv, hl⟩, hr⟩ x hx
      rcases hx with hx | hx | hx
      · exact hl x hx
      · exact hx ▸ hv
      · exact hr x hx
    · intro h
      exact ⟨⟨h v (Or.inr (Or.inl rfl)), fun x hx => h x (Or.inl hx)⟩,
        fun x hx => h x (Or.inr (Or.inr hx))⟩

theorem PT.allB_of_sub {p : α → Bool} {t u : PT α}
    (hsub : ∀ x ∈ PT.inorder u, x ∈ PT.inorder t)
    (h : PT.allB p t = true) : PT.allB p u = true := by
  rw [PT.allB_iff] at h ⊢
  exact fun x hx => h x (hsub x hx)

theorem PT.pairwise_inorder {less : α → α → Bool}
    (htr : ∀ a b c, less a b = true → less b c = true → less a c = true)
    {t : PT α} (h : PT.isBST less t = true) :
    List.Pairwise (fun a b => less a b = true) (PT.inorder t) := by
  induction t with
  | leaf => simp [PT.inorder]
  | node i v pp l r ihl ihr =>
    simp only [PT.isBST, Bool.and_eq_true] at h
    obtain ⟨⟨⟨hal, har⟩, hbl⟩, hbr⟩ := h
    rw [PT.allB_iff] at hal har
    simp only [PT.inorder, List.pairwise_append, List.pairwise_cons]
    refine ⟨ihl hbl, ⟨fun x hx => har x hx, ihr hbr⟩, ?_⟩
    intro a ha b hb
    rcases List.mem_cons.mp hb with hb | hb
    · exact hb ▸ hal a ha
    · exact htr a v b (hal a ha) (har b hb)

/-! Lemmas about `Min`, `Max` and `removeLeftmost`. -/

theorem PT.min_shape : ∀ {t s : PT α}, PT.Min t = some s →
    ∃ i v p r, s = PT.node i v p PT.leaf r := by
  intro t
  induction t with
  | leaf => intro s h; simp [PT.Min] at h
  | node i v pp l r ihl ihr =>
    intro s h
    cases l with
    | leaf =>
      simp only [PT.Min] at h
      exact ⟨i, v, pp, r, (Option.some_inj.mp h).symm⟩
    | node a b c d e => exact ihl h

theorem PT.min_inorder : ∀ {t : PT α} {i : Nat} {v : α} {p : Option Nat} {l r : PT α},
    PT.Min t = some (PT.node i v p l r) →
    PT.inorder t = v :: PT.inorder (PT.removeLeftmost t) ∧
    PT.ids t = i :: PT.ids (PT.removeLeftmost t) := by
  intro t
  induction t with
  | leaf => intro i v p l r h; simp [PT.Min] at h
  | node j w q tl tr ihl ihr =>
    intro i v p l r h
    cases tl with
    | leaf =>
      simp only [PT.Min, Option.some_inj, PT.node.injEq] at h
      obtain ⟨h1, h2, h3, h4, h5⟩ := h
      subst h1 h2 h3 h5
      simp [PT.inorder, PT.ids, PT.removeLeftmost, PT.inorder_setRootPid,
        PT.ids_setRootPid]
    | node a b c d e =>
      simp only [PT.Min] at h
      obtain ⟨h1, h2⟩ := ihl h
      have hrm : PT.removeLeftmost (PT.node j w q (PT.node a b c d e) tr)
          = PT.node j w q (PT.removeLeftmost (PT.node a b c d e)) tr := rfl
      constructor
      · rw [hrm]
        show PT.inorder (PT.node a b c d e) ++ w :: PT.inorder tr
            = v :: PT.inorder (PT.node j w q (PT.removeLeftmost (PT.node a b c d e)) tr)
        rw [h1]
        rfl
      · rw [hrm]
        show PT.ids (PT.node a b c d e) ++ j :: PT.ids tr
            = i :: PT.ids (PT.node j w q (PT.removeLeftmost (PT.node a b c d e)) tr)
        rw [h2]
        rfl

theorem PT.min_isSome : ∀ {t : PT α}, t ≠ PT.leaf → ∃ s, PT.Min t = some s := by
  intro t
  induction t with
  | leaf => intro h; exact absurd rfl h
  | node j w q tl tr ihl ihr =>
    intro _
    cases tl with
    | leaf => exact ⟨PT.node j w q PT.leaf tr, rfl⟩
    | node a b c d e =>
      obtain ⟨s, hs⟩ := ihl (by simp)
      exact ⟨s, hs⟩

theorem PT.allB_removeLeftmost {p : α → Bool} : ∀ {t : PT α},
    PT.allB p t = true → PT.allB p (PT.removeLeftmost t) = true := by
  intro t
  induction t with
  | leaf => intro h; exact h
  | node j w q tl tr ihl ihr =>
    intro h
    simp only [PT.allB, Bool.and_eq_true] at h
    cases tl with
    | leaf =>
      show PT.allB p (PT.setRootPid q tr) = true
      rw [PT.allB_setRootPid]
      exact h.2
    | node a b c d e =>
      show PT.allB p (PT.node j w q (PT.removeLeftmost (PT.node a b c d e)) tr) = true
      simp only [PT.allB, Bool.and_eq_true]
      exact ⟨⟨h.1.1, ihl h.1.2⟩, h.2⟩

theorem PT.isBST_removeLeftmost {less : α → α → Bool} : ∀ {t : PT α},
    PT.isBST less t = true → PT.isBST less (PT.removeLeftmost t) = true := by
  intro t
  induction t with
  | leaf => intro h; exact h
  | node j w q tl tr ihl ihr =>
    intro h
    simp only [PT.isBST, Bool.and_eq_true] at h
    cases tl with
    | leaf =>
      show PT.isBST less (PT.setRootPid q tr) = true
      rw [PT.isBST_setRootPid]
      exact h.2
    | node a b c d e =>
      show PT.isBST less (PT.node j w q (PT.removeLeftmost (PT.node a b c d e)) tr) = true
      simp only [PT.isBST, Bool.and_eq_true]
      exact ⟨⟨⟨PT.allB_removeLeftmost h.1.1.1, h.1.1.2⟩, ihl h.1.2⟩, h.2⟩

theorem PT.parentOK_removeLeftmost {pp : Option Nat} : ∀ {t : PT α},
    PT.parentOK pp t = true → PT.parentOK pp (PT.removeLeftmost t) = true := by
  intro t
  induction t generalizing pp with
  | leaf => intro h; exact h
  | node j w q tl tr ihl ihr =>
    intro h
    simp only [PT.parentOK, Bool.and_eq_true, decide_eq_true_eq] at h
    cases tl with
    | leaf =>
      show PT.parentOK pp (PT.setRootPid q tr) = true
      have : PT.parentOK pp (PT.setRootPid pp tr) = true := PT.parentOK_setRootPid pp h.2
      rwa [h.1.1]
    | node a b c d e =>
      show PT.parentOK pp (PT.node j w q (PT.removeLeftmost (PT.node a b c d e)) tr) = true
      simp only [PT.parentOK, Bool.and_eq_true, decide_eq_true_eq]
      exact ⟨⟨h.1.1, ihl h.1.2⟩, h.2⟩

theorem PT.min_pid_shallow {i : Nat} {v : α} {p : Option Nat} {r : PT α}
    {pp : Option Nat} (h : PT.parentOK pp (PT.node i v p PT.leaf r) = true) :
    PT.Min (PT.node i v p PT.leaf r) = some (PT.node i v p PT.leaf r) ∧ p = pp := by
  simp only [PT.parentOK, Bool.and_eq_true, decide_eq_true_eq] at h
  exact ⟨rfl, h.1.1⟩

theorem PT.min_pid_deep : ∀ {t : PT α} {pp : Option Nat} {i : Nat} {v : α}
    {p : Option Nat} {l r : PT α},
    PT.parentOK pp t = true →
    PT.Min t = some (PT.node i v p l r) →
    (∀ a b c e, t ≠ PT.node a b c PT.leaf e) →
    ∃ j ∈ PT.ids t, p = some j := by
  intro t
  induction t with
  | leaf => intro pp i v p l r _ h _; simp [PT.Min] at h
  | node j w q tl tr ihl ihr =>
    intro pp i v p l r hpar h hdeep
    simp only [PT.parentOK, Bool.and_eq_true, decide_eq_true_eq] at hpar
    cases tl with
    | leaf => exact absurd rfl (hdeep j w q tr)
    | node a b c d e =>
      simp only [PT.Min] at h
      by_cases hd : ∀ a2 b2 c2 e2, PT.node a b c d e ≠ PT.node a2 b2 c2 PT.leaf e2
      · obtain ⟨j2, hj2, hp⟩ := ihl hpar.1.2 h hd
        refine ⟨j2, ?_, hp⟩
        have hids : PT.ids (PT.node j w q (PT.node a b c d e) tr)
            = PT.ids (PT.node a b c d e) ++ j :: PT.ids tr := rfl
        rw [hids]
        exact List.mem_append_left _ hj2
      · push_neg at hd
        obtain ⟨a2, b2, c2, e2, heq⟩ := hd
        rw [heq] at h hpar
        obtain ⟨hmin, hpid⟩ := PT.min_pid_shallow hpar.1.2
        rw [hmin] at h
        simp only [Option.some_inj, PT.node.injEq] at h
        refine ⟨j, ?_, ?_⟩
        · simp [PT.ids]
        · rw [← h.2.2.1, hpid]

theorem PT.allB_lt_of_lt {less : α → α → Bool}
    (htr : ∀ a b c, less a b = true → less b c = true → less a c = true)
    {t : PT α} {v u : α} (h : PT.allB (fun w => less w v) t = true)
    (hvu : less v u = true) : PT.allB (fun w => less w u) t = true := by
  rw [PT.allB_iff] at h ⊢
  exact fun x hx => htr x v u (h x hx) hvu


theorem PT.isBST_node_iff {less : α → α → Bool} {i : Nat} {v : α}
    {p : Option Nat} {l r : PT α} :
    PT.isBST less (PT.node i v p l r) = true ↔
      PT.allB (fun w => less w v) l = true ∧ PT.allB (fun w => less v w) r = true ∧
      PT.isBST less l = true ∧ PT.isBST less r = true := by
  show (PT.allB (fun w => less w v) l && PT.allB (fun w => less v w) r &&
      PT.isBST less l && PT.isBST less r) = true ↔ _
  simp only [Bool.and_eq_true]
  tauto

theorem PT.parentOK_node_iff {i : Nat} {v : α} {p pp : Option Nat} {l r : PT α} :
    PT.parentOK pp (PT.node i v p l r) = true ↔
      p = pp ∧ PT.parentOK (some i) l = true ∧ PT.parentOK (some i) r = true := by
  show (decide (p = pp) && PT.parentOK (some i) l && PT.parentOK (some i) r) = true ↔ _
  simp only [Bool.and_eq_true, decide_eq_true_eq]
  tauto

theorem PT.delRoot_spec {less : α → α → Bool}
    (htr : ∀ a b c, less a b = true → less b c = true → less a c = true)
    {i : Nat} {v : α} {p pp : Option Nat} {l r : PT α}
    (hb : PT.isBST less (PT.node i v p l r) = true)
    (hp : PT.parentOK pp (PT.node i v p l r) = true)
    (hn : (PT.ids (PT.node i v p l r)).Nodup) :
    PT.inorder (PT.delRoot i v p l r) = PT.inorder l ++ PT.inorder r ∧
    PT.ids (PT.delRoot i v p l r) = PT.ids l ++ PT.ids r ∧
    PT.isBST less (PT.delRoot i v p l r) = true ∧
    PT.parentOK pp (PT.delRoot i v p l r) = true := by
  rw [PT.isBST_node_iff] at hb
  rw [PT.parentOK_node_iff] at hp
  obtain ⟨hall, halr, hbl, hbr⟩ := hb
  obtain ⟨hppq, hpl, hpr⟩ := hp
  subst hppq
  have hnir : i ∉ PT.ids r := by
    have hh : PT.ids (PT.node i v p l r) = PT.ids l ++ i :: PT.ids r := rfl
    rw [hh] at hn
    exact (List.nodup_cons.mp hn.of_append_right).1
  cases l with
  | leaf =>
    refine ⟨?_, ?_, ?_, ?_⟩
    · show PT.inorder (PT.setRootPid p r) = PT.inorder PT.leaf ++ PT.inorder r
      simp [PT.inorder_setRootPid, PT.inorder]
    · show PT.ids (PT.setRootPid p r) = PT.ids PT.leaf ++ PT.ids r
      simp [PT.ids_setRootPid, PT.ids]
    · show PT.isBST less (PT.setRootPid p r) = true
      rw [PT.isBST_setRootPid]
      exact hbr
    · show PT.parentOK p (PT.setRootPid p r) = true
      exact PT.parentOK_setRootPid p hpr
  | node a b c d e =>
    cases r with
    | leaf =>
      refine ⟨?_, ?_, ?_, ?_⟩
      · show PT.inorder (PT.setRootPid p (PT.node a b c d e))
            = PT.inorder (PT.node a b c d e) ++ PT.inorder PT.leaf
        simp [PT.inorder_setRootPid, PT.inorder]
      · show PT.ids (PT.setRootPid p (PT.node a b c d e))
            = PT.ids (PT.node a b c d e) ++ PT.ids PT.leaf
        simp [PT.ids_setRootPid, PT.ids]
      · show PT.isBST less (PT.setRootPid p (PT.node a b c d e)) = true
        rw [PT.isBST_setRootPid]
        exact hbl
      · show PT.parentOK p (PT.setRootPid p (PT.node a b c d e)) = true
        exact PT.parentOK_setRootPid p hpl
    | node f g h2 j k =>
      have hpairR := PT.pairwise_inorder htr hbr
      cases j with
      | leaf =>
        have hdel : PT.delRoot i v p (PT.node a b c d e) (PT.node f g h2 PT.leaf k)
            = if h2 ≠ some i then
                PT.node f g p (PT.setRootPid (some f) (PT.node a b c d e))
                  (PT.setRootPid (some f)
                    (PT.removeLeftmost (PT.node f g h2 PT.leaf k)))
              else
                PT.node f g p (PT.setRootPid (some f) (PT.node a b c d e)) k := rfl
        have hpr2 := PT.parentOK_node_iff.mp hpr
        have hh2i : h2 = some i := hpr2.1
        rw [hdel, if_neg (by simp [hh2i])]
        have hvg : less v g = true := by
          rw [PT.allB_iff] at halr
          refine halr g ?_
          show g ∈ PT.inorder PT.leaf ++ g :: PT.inorder k
          simp
        refine ⟨?_, ?_, ?_, ?_⟩
        · show PT.inorder (PT.setRootPid (some f) (PT.node a b c d e)) ++
              g :: PT.inorder k = _
          rw [PT.inorder_setRootPid]
          rfl
        · show PT.ids (PT.setRootPid (some f) (PT.node a b c d e)) ++
              f :: PT.ids k = _
          rw [PT.ids_setRootPid]
          rfl
        · rw [PT.isBST_node_iff, PT.allB_setRootPid, PT.isBST_setRootPid]
          have hbr2 := PT.isBST_node_iff.mp hbr
          exact ⟨PT.allB_lt_of_lt htr hall hvg, hbr2.2.1, hbl, hbr2.2.2.2⟩
        · rw [PT.parentOK_node_iff]
          exact ⟨rfl, PT.parentOK_setRootPid _ hpl, hpr2.2.2⟩
      | node f2 g2 h3 j2 k2 =>
        obtain ⟨s, hs⟩ := PT.min_isSome
          (t := PT.node f g h2 (PT.node f2 g2 h3 j2 k2) k) (by simp)
        obtain ⟨si, sv, sp, sr, hshape⟩ := PT.min_shape hs
        subst hshape
        obtain ⟨hio, hid⟩ := PT.min_inorder hs
        have hsvmem : sv ∈ PT.inorder (PT.node f g h2 (PT.node f2 g2 h3 j2 k2) k) := by
          rw [hio]
          exact List.mem_cons_self _ _
        have hvsv : less v sv = true := (PT.allB_iff _ _).mp halr sv hsvmem
        have hdeep : ∃ jj ∈ PT.ids (PT.node f g h2 (PT.node f2 g2 h3 j2 k2) k),
            sp = some jj := by
          refine PT.min_pid_deep hpr hs ?_
          intro a2 b2 c2 e2 heq
          simp only [PT.node.injEq] at heq
          exact absurd heq.2.2.2.1 (by simp)
        obtain ⟨jj, hjjmem, hjj⟩ := hdeep
        have hspne : sp ≠ some i := by
          rw [hjj]
          intro hcon
          simp only [Option.some_inj] at hcon
          exact hnir (hcon ▸ hjjmem)
        have hdel : PT.delRoot i v p (PT.node a b c d e)
              (PT.node f g h2 (PT.node f2 g2 h3 j2 k2) k)
            = if sp ≠ some i then
                PT.node si sv p (PT.setRootPid (some si) (PT.node a b c d e))
                  (PT.setRootPid (some si)
                    (PT.removeLeftmost (PT.node f g h2 (PT.node f2 g2 h3 j2 k2) k)))
              else
                PT.node si sv p
                  (PT.setRootPid (some si) (PT.node a b c d e)) sr := by
          show (match PT.Min (PT.node f g h2 (PT.node f2 g2 h3 j2 k2) k) with
            | none => PT.leaf
            | some PT.leaf => PT.leaf
            | some (PT.node si sv sp _ sr) =>
                if sp ≠ some i then
                  PT.node si sv p (PT.setRootPid (some si) (PT.node a b c d e))
                    (PT.setRootPid (some si)
                      (PT.removeLeftmost (PT.node f g h2 (PT.node f2 g2 h3 j2 k2) k)))
                else
                  PT.node si sv p
                    (PT.setRootPid (some si) (PT.node a b c d e)) sr) = _
          rw [hs]
        rw [hdel, if_pos hspne]
        rw [hio] at hpairR
        have hsvlt : ∀ x ∈ PT.inorder
            (PT.removeLeftmost (PT.node f g h2 (PT.node f2 g2 h3 j2 k2) k)),
            less sv x = true := (List.pairwise_cons.mp hpairR).1
        refine ⟨?_, ?_, ?_, ?_⟩
        · show PT.inorder (PT.setRootPid (some si) (PT.node a b c d e)) ++
              sv :: PT.inorder (PT.setRootPid (some si)
                (PT.removeLeftmost (PT.node f g h2 (PT.node f2 g2 h3 j2 k2) k))) = _
          rw [PT.inorder_setRootPid, PT.inorder_setRootPid, ← hio]
        · show PT.ids (PT.setRootPid (some si) (PT.node a b c d e)) ++
              si :: PT.ids (PT.setRootPid (some si)
                (PT.removeLeftmost (PT.node f g h2 (PT.node f2 g2 h3 j2 k2) k))) = _
          rw [PT.ids_setRootPid, PT.ids_setRootPid, ← hid]
        · rw [PT.isBST_node_iff, PT.allB_setRootPid, PT.allB_setRootPid,
            PT.isBST_setRootPid, PT.isBST_setRootPid]
          refine ⟨PT.allB_lt_of_lt htr hall hvsv, ?_,
            hbl, PT.isBST_removeLeftmost hbr⟩
          rw [PT.allB_iff]
          exact hsvlt
        · rw [PT.parentOK_node_iff]
          exact ⟨rfl, PT.parentOK_setRootPid _ hpl,
            PT.parentOK_setRootPid _ (PT.parentOK_removeLeftmost hpr)⟩

theorem PT.delFix_spec {less : α → α → Bool} {v : α}
    (htr : ∀ a b c, less a b = true → less b c = true → less a c = true)
    (hcn : ∀ a b, less a b = false → less b a = false → a = b) :
    ∀ {t : PT α} {pp : Option Nat} {n : PT α},
    PT.isBST less t = true → PT.parentOK pp t = true → (PT.ids t).Nodup →
    PT.Find less t v = some n →
    (∃ xs ys, PT.inorder t = xs ++ v :: ys ∧
      PT.inorder (PT.delFix less v t) = xs ++ ys) ∧
    (PT.ids (PT.delFix less v t)).Sublist (PT.ids t) ∧
    PT.isBST less (PT.delFix less v t) = true ∧
    PT.parentOK pp (PT.delFix less v t) = true := by
  intro t
  induction t with
  | leaf => intro pp n _ _ _ hf; simp [PT.Find] at hf
  | node i w p l r ihl ihr =>
    intro pp n hb hp hn hf
    obtain ⟨hall, halr, hbl, hbr⟩ := PT.isBST_node_iff.mp hb
    obtain ⟨hppq, hpl, hpr⟩ := PT.parentOK_node_iff.mp hp
    have hnids : PT.ids (PT.node i w p l r) = PT.ids l ++ i :: PT.ids r := rfl
    have hnl : (PT.ids l).Nodup := by
      rw [hnids] at hn
      exact hn.of_append_left
    have hnr : (PT.ids r).Nodup := by
      rw [hnids] at hn
      exact (List.nodup_cons.mp hn.of_append_right).2
    by_cases hvw : less v w = true
    · have hf' : PT.Find less l v = some n := by
        rw [show PT.Find less (PT.node i w p l r) v
          = if less v w then PT.Find less l v
            else if less w v then PT.Find less r v
            else some (PT.node i w p l r) from rfl, if_pos hvw] at hf
        exact hf
      have hdf : PT.delFix less v (PT.node i w p l r)
          = PT.node i w p (PT.delFix less v l) r := by
        rw [show PT.delFix less v (PT.node i w p l r)
          = if less v w then PT.node i w p (PT.delFix less v l) r
            else if less w v then PT.node i w p l (PT.delFix less v r)
            else PT.delRoot i w p l r from rfl, if_pos hvw]
      obtain ⟨⟨xs, ys, h1, h2⟩, hsub, hbst2, hpar2⟩ := ihl hbl hpl hnl hf'
      have hmem : ∀ x ∈ PT.inorder (PT.delFix less v l), x ∈ PT.inorder l := by
        intro x hx
        rw [h2] at hx
        rw [h1]
        rcases List.mem_append.mp hx with hx | hx
        · exact List.mem_append_left _ hx
        · exact List.mem_append_right _ (List.mem_cons_of_mem _ hx)
      rw [hdf]
      refine ⟨⟨xs, ys ++ w :: PT.inorder r, ?_, ?_⟩, ?_, ?_, ?_⟩
      · show PT.inorder l ++ w :: PT.inorder r = _
        rw [h1]
        simp [List.append_assoc]
      · show PT.inorder (PT.delFix less v l) ++ w :: PT.inorder r = _
        rw [h2]
        simp [List.append_assoc]
      · show (PT.ids (PT.delFix less v l) ++ i :: PT.ids r).Sublist
            (PT.ids l ++ i :: PT.ids r)
        exact hsub.append (List.Sublist.refl _)
      · rw [PT.isBST_node_iff]
        exact ⟨PT.allB_of_sub hmem hall, halr, hbst2, hbr⟩
      · rw [PT.parentOK_node_iff]
        exact ⟨hppq, hpar2, hpr⟩
    · by_cases hwv : less w v = true
      · have hf' : PT.Find less r v = some n := by
          rw [show PT.Find less (PT.node i w p l r) v
            = if less v w then PT.Find less l v
              else if less w v then PT.Find less r v
              else some (PT.node i w p l r) from rfl,
            if_neg (by simp [hvw]), if_pos hwv] at hf
          exact hf
        have hdf : PT.delFix less v (PT.node i w p l r)
            = PT.node i w p l (PT.delFix less v r) := by
          rw [show PT.delFix less v (PT.node i w p l r)
            = if less v w then PT.node i w p (PT.delFix less v l) r
              else if less w v then PT.node i w p l (PT.delFix less v r)
              else PT.delRoot i w p l r from rfl,
            if_neg (by simp [hvw]), if_pos hwv]
        obtain ⟨⟨xs, ys, h1, h2⟩, hsub, hbst2, hpar2⟩ := ihr hbr hpr hnr hf'
        have hmem : ∀ x ∈ PT.inorder (PT.delFix less v r), x ∈ PT.inorder r := by
          intro x hx
          rw [h2] at hx
          rw [h1]
          rcases List.mem_append.mp hx with hx | hx
          · exact List.mem_append_left _ hx
          · exact List.mem_append_right _ (List.mem_cons_of_mem _ hx)
        rw [hdf]
        refine ⟨⟨PT.inorder l ++ w :: xs, ys, ?_, ?_⟩, ?_, ?_, ?_⟩
        · show PT.inorder l ++ w :: PT.inorder r = _
          rw [h1]
          simp [List.append_assoc]
        · show PT.inorder l ++ w :: PT.inorder (PT.delFix less v r) = _
          rw [h2]
          simp [List.append_assoc]
        · show (PT.ids l ++ i :: PT.ids (PT.delFix less v r)).Sublist
              (PT.ids l ++ i :: PT.ids r)
          exact (List.Sublist.refl _).append (List.Sublist.cons₂ i hsub)
        · rw [PT.isBST_node_iff]
          exact ⟨hall, PT.allB_of_sub hmem halr, hbl, hbst2⟩
        · rw [PT.parentOK_node_iff]
          exact ⟨hppq, hpl, hpar2⟩
      · have hweq : w = v := hcn w v
          (by revert hwv; cases less w v <;> simp)
          (by revert hvw; cases less v w <;> simp)
        subst hweq
        have hdf : PT.delFix less w (PT.node i w p l r) = PT.delRoot i w p l r := by
          rw [show PT.delFix less w (PT.node i w p l r)
            = if less w w then PT.node i w p (PT.delFix less w l) r
              else if less w w then PT.node i w p l (PT.delFix less w r)
              else PT.delRoot i w p l r from rfl,
            if_neg (by simp [hvw]), if_neg (by simp [hvw])]
        obtain ⟨hio, hid, hbst2, hpar2⟩ := PT.delRoot_spec htr hb hp hn
        rw [hdf]
        refine ⟨⟨PT.inorder l, PT.inorder r, rfl, hio⟩, ?_, hbst2, hpar2⟩
        rw [hid, hnids]
        exact (List.Sublist.refl _).append (List.sublist_cons_self _ _)

theorem PT.insFix_red {less : α → α → Bool} {v : α} {f : Nat} {pp : Option Nat}
    {i : Nat} {w : α} {p : Option Nat} {l r : PT α} :
    PT.insFix less v f pp (PT.node i w p l r)
    = if less v w then
        (PT.node i w p (PT.insFix less v f (some i) l).1 r,
          (PT.insFix less v f (some i) l).2.1, (PT.insFix less v f (some i) l).2.2)
      else if less w v then
        (PT.node i w p l (PT.insFix less v f (some i) r).1,
          (PT.insFix less v f (some i) r).2.1, (PT.insFix less v f (some i) r).2.2)
      else (PT.node i w p l r, false, PT.node i w p l r) := rfl

theorem PT.find_red {less : α → α → Bool} {v : α}
    {i : Nat} {w : α} {p : Option Nat} {l r : PT α} :
    PT.Find less (PT.node i w p l r) v
    = if less v w then PT.Find less l v
      else if less w v then PT.Find less r v
      else some (PT.node i w p l r) := rfl

theorem PT.insFix_found {less : α → α → Bool} {v : α} {f : Nat} :
    ∀ {t : PT α} {pp : Option Nat} {n : PT α},
    PT.Find less t v = some n → PT.insFix less v f pp t = (t, false, n) := by
  intro t
  induction t with
  | leaf => intro pp n hf; simp [PT.Find] at hf
  | node i w p l r ihl ihr =>
    intro pp n hf
    rw [PT.find_red] at hf
    rw [PT.insFix_red]
    by_cases hvw : less v w = true
    · rw [if_pos hvw] at hf ⊢
      rw [ihl hf]
    · rw [if_neg (by simp [hvw])] at hf ⊢
      by_cases hwv : less w v = true
      · rw [if_pos hwv] at hf ⊢
        rw [ihr hf]
      · rw [if_neg (by simp [hwv])] at hf ⊢
        simp only [Option.some_inj] at hf
        rw [hf]

theorem PT.insFix_new {less : α → α → Bool} {v : α} {f : Nat} :
    ∀ {t : PT α} {pp : Option Nat},
    PT.Find less t v = none →
    PT.insFix less v f pp t
      = (PT.graftAt t (PT.descPath less v t)
          (PT.node f v (PT.lastV less v t pp) PT.leaf PT.leaf), true,
         PT.node f v (PT.lastV less v t pp) PT.leaf PT.leaf) := by
  intro t
  induction t with
  | leaf =>
    intro pp _
    rfl
  | node i w p l r ihl ihr =>
    intro pp hf
    rw [PT.find_red] at hf
    rw [PT.insFix_red]
    by_cases hvw : less v w = true
    · rw [if_pos hvw] at hf ⊢
      rw [ihl hf]
      have hdp : PT.descPath less v (PT.node i w p l r) = Dir.L :: PT.descPath less v l := by
        rw [show PT.descPath less v (PT.node i w p l r)
          = if less v w then Dir.L :: PT.descPath less v l
            else if less w v then Dir.R :: PT.descPath less v r
            else [] from rfl, if_pos hvw]
      have hlv : PT.lastV less v (PT.node i w p l r) pp = PT.lastV less v l (some i) := by
        rw [show PT.lastV less v (PT.node i w p l r) pp
          = if less v w then PT.lastV less v l (some i)
            else if less w v then PT.lastV less v r (some i)
            else some i from rfl, if_pos hvw]
      rw [hdp, hlv]
      rfl
    · rw [if_neg (by simp [hvw])] at hf ⊢
      by_cases hwv : less w v = true
      · rw [if_pos hwv] at hf ⊢
        rw [ihr hf]
        have hdp : PT.descPath less v (PT.node i w p l r)
            = Dir.R :: PT.descPath less v r := by
          rw [show PT.descPath less v (PT.node i w p l r)
            = if less v w then Dir.L :: PT.descPath less v l
              else if less w v then Dir.R :: PT.descPath less v r
              else [] from rfl, if_neg (by simp [hvw]), if_pos hwv]
        have hlv : PT.lastV less v (PT.node i w p l r) pp
            = PT.lastV less v r (some i) := by
          rw [show PT.lastV less v (PT.node i w p l r) pp
            = if less v w then PT.lastV less v l (some i)
              else if less w v then PT.lastV less v r (some i)
              else some i from rfl, if_neg (by simp [hvw]), if_pos hwv]
        rw [hdp, hlv]
        rfl
      · rw [if_neg (by simp [hwv])] at hf
        exact absurd hf (by simp)

theorem PT.insFix_splice {less : α → α → Bool} {v : α} {f : Nat} :
    ∀ {t : PT α} {pp : Option Nat},
    PT.Find less t v = none →
    ∃ xs ys as bs,
      PT.inorder t = xs ++ ys ∧
      PT.inorder (PT.insFix less v f pp t).1 = xs ++ v :: ys ∧
      PT.ids t = as ++ bs ∧
      PT.ids (PT.insFix less v f pp t).1 = as ++ f :: bs := by
  intro t
  induction t with
  | leaf =>
    intro pp _
    exact ⟨[], [], [], [], rfl, rfl, rfl, rfl⟩
  | node i w p l r ihl ihr =>
    intro pp hf
    rw [PT.find_red] at hf
    rw [PT.insFix_red]
    by_cases hvw : less v w = true
    · rw [if_pos hvw] at hf ⊢
      obtain ⟨xs, ys, as, bs, h1, h2, h3, h4⟩ := @ihl (some i) hf
      refine ⟨xs, ys ++ w :: PT.inorder r, as, bs ++ i :: PT.ids r, ?_, ?_, ?_, ?_⟩
      · show PT.inorder l ++ w :: PT.inorder r = _
        rw [h1]
        simp [List.append_assoc]
      · show PT.inorder (PT.insFix less v f (some i) l).1 ++ w :: PT.inorder r = _
        rw [h2]
        simp [List.append_assoc]
      · show PT.ids l ++ i :: PT.ids r = _
        rw [h3]
        simp [List.append_assoc]
      · show PT.ids (PT.insFix less v f (some i) l).1 ++ i :: PT.ids r = _
        rw [h4]
        simp [List.append_assoc]
    · rw [if_neg (by simp [hvw])] at hf ⊢
      by_cases hwv : less w v = true
      · rw [if_pos hwv] at hf ⊢
        obtain ⟨xs, ys, as, bs, h1, h2, h3, h4⟩ := @ihr (some i) hf
        refine ⟨PT.inorder l ++ w :: xs, ys, PT.ids l ++ i :: as, bs, ?_, ?_, ?_, ?_⟩
        · show PT.inorder l ++ w :: PT.inorder r = _
          rw [h1]
          simp [List.append_assoc]
        · show PT.inorder l ++ w :: PT.inorder (PT.insFix less v f (some i) r).1 = _
          rw [h2]
          simp [List.append_assoc]
        · show PT.ids l ++ i :: PT.ids r = _
          rw [h3]
          simp [List.append_assoc]
        · show PT.ids l ++ i :: PT.ids (PT.insFix less v f (some i) r).1 = _
          rw [h4]
          simp [List.append_assoc]
      · rw [if_neg (by simp [hwv])] at hf
        exact absurd hf (by simp)

theorem PT.allB_insFix {less : α → α → Bool} {v : α} {f : Nat} {q : α → Bool} :
    ∀ {t : PT α} {pp : Option Nat},
    PT.allB q t = true → q v = true →
    PT.allB q (PT.insFix less v f pp t).1 = true := by
  intro t
  induction t with
  | leaf =>
    intro pp _ hv
    show (q v && PT.allB q PT.leaf && PT.allB q PT.leaf) = true
    simp [hv, PT.allB]
  | node i w p l r ihl ihr =>
    intro pp ht hv
    have hcomp : (q w && PT.allB q l && PT.allB q r) = true := ht
    simp only [Bool.and_eq_true] at hcomp
    rw [PT.insFix_red]
    by_cases hvw : less v w = true
    · rw [if_pos hvw]
      show (q w && PT.allB q (PT.insFix less v f (some i) l).1 && PT.allB q r) = true
      simp only [Bool.and_eq_true]
      exact ⟨⟨hcomp.1.1, ihl hcomp.1.2 hv⟩, hcomp.2⟩
    · rw [if_neg (by simp [hvw])]
      by_cases hwv : less w v = true
      · rw [if_pos hwv]
        show (q w && PT.allB q l && PT.allB q (PT.insFix less v f (some i) r).1) = true
        simp only [Bool.and_eq_true]
        exact ⟨⟨hcomp.1.1, hcomp.1.2⟩, ihr hcomp.2 hv⟩
      · rw [if_neg (by simp [hwv])]
        exact ht

theorem PT.isBST_insFix {less : α → α → Bool} {v : α} {f : Nat} :
    ∀ {t : PT α} {pp : Option Nat},
    PT.isBST less t = true → PT.isBST less (PT.insFix less v f pp t).1 = true := by
  intro t
  induction t with
  | leaf =>
    intro pp _
    show PT.isBST less (PT.node f v pp PT.leaf PT.leaf) = true
    rw [PT.isBST_node_iff]
    exact ⟨rfl, rfl, rfl, rfl⟩
  | node i w p l r ihl ihr =>
    intro pp hb
    obtain ⟨hall, halr, hbl, hbr⟩ := PT.isBST_node_iff.mp hb
    rw [PT.insFix_red]
    by_cases hvw : less v w = true
    · rw [if_pos hvw]
      show PT.isBST less (PT.node i w p (PT.insFix less v f (some i) l).1 r) = true
      rw [PT.isBST_node_iff]
      exact ⟨PT.allB_insFix hall hvw, halr, ihl hbl, hbr⟩
    · rw [if_neg (by simp [hvw])]
      by_cases hwv : less w v = true
      · rw [if_pos hwv]
        show PT.isBST less (PT.node i w p l (PT.insFix less v f (some i) r).1) = true
        rw [PT.isBST_node_iff]
        exact ⟨hall, PT.allB_insFix halr hwv, hbl, ihr hbr⟩
      · rw [if_neg (by simp [hwv])]
        exact hb

theorem PT.parentOK_insFix {less : α → α → Bool} {v : α} {f : Nat} :
    ∀ {t : PT α} {pp : Option Nat},
    PT.parentOK pp t = true →
    PT.parentOK pp (PT.insFix less v f pp t).1 = true := by
  intro t
  induction t with
  | leaf =>
    intro pp _
    show PT.parentOK pp (PT.node f v pp PT.leaf PT.leaf) = true
    rw [PT.parentOK_node_iff]
    exact ⟨rfl, rfl, rfl⟩
  | node i w p l r ihl ihr =>
    intro pp hp
    obtain ⟨hppq, hpl, hpr⟩ := PT.parentOK_node_iff.mp hp
    rw [PT.insFix_red]
    by_cases hvw : less v w = true
    · rw [if_pos hvw]
      show PT.parentOK pp (PT.node i w p (PT.insFix less v f (some i) l).1 r) = true
      rw [PT.parentOK_node_iff]
      exact ⟨hppq, ihl hpl, hpr⟩
    · rw [if_neg (by simp [hvw])]
      by_cases hwv : less w v = true
      · rw [if_pos hwv]
        show PT.parentOK pp (PT.node i w p l (PT.insFix less v f (some i) r).1) = true
        rw [PT.parentOK_node_iff]
        exact ⟨hppq, hpl, ihr hpr⟩
      · rw [if_neg (by simp [hwv])]
        exact hp

theorem less_irrefl {less : α → α → Bool}
    (has : ∀ a b, less a b = true → less b a = false) (a : α) :
    less a a = false := by
  cases hla : less a a with
  | false => rfl
  | true =>
    have hf := has a a hla
    rw [hf] at hla
    exact absurd hla Bool.false_ne_true

theorem PT.find_mem {less : α → α → Bool} {v : α}
    (hcn : ∀ a b, less a b = false → less b a = false → a = b) :
    ∀ {t n : PT α}, PT.Find less t v = some n → v ∈ PT.inorder t := by
  intro t
  induction t with
  | leaf => intro n hf; simp [PT.Find] at hf
  | node i w p l r ihl ihr =>
    intro n hf
    rw [PT.find_red] at hf
    have hmem : PT.inorder (PT.node i w p l r) = PT.inorder l ++ w :: PT.inorder r := rfl
    by_cases hvw : less v w = true
    · rw [if_pos hvw] at hf
      rw [hmem]
      exact List.mem_append_left _ (ihl hf)
    · rw [if_neg (by simp [hvw])] at hf
      by_cases hwv : less w v = true
      · rw [if_pos hwv] at hf
        rw [hmem]
        exact List.mem_append_right _ (List.mem_cons_of_mem _ (ihr hf))
      · have hweq : w = v := hcn w v (by revert hwv; cases less w v <;> simp)
          (by revert hvw; cases less v w <;> simp)
        subst hweq
        rw [hmem]
        exact List.mem_append_right _ (List.mem_cons_self _ _)

theorem PT.mem_find {less : α → α → Bool} {v : α}
    (has : ∀ a b, less a b = true → less b a = false) :
    ∀ {t : PT α}, PT.isBST less t = true → v ∈ PT.inorder t →
    (PT.Find less t v).isSome = true := by
  intro t
  induction t with
  | leaf => intro _ hm; simp [PT.inorder] at hm
  | node i w p l r ihl ihr =>
    intro hb hm
    obtain ⟨hall, halr, hbl, hbr⟩ := PT.isBST_node_iff.mp hb
    rw [PT.find_red]
    have hmem : PT.inorder (PT.node i w p l r) = PT.inorder l ++ w :: PT.inorder r := rfl
    rw [hmem] at hm
    rcases List.mem_append.mp hm with hv | hv
    · have hvw : less v w = true := (PT.allB_iff _ _).mp hall v hv
      rw [if_pos hvw]
      exact ihl hbl hv
    · rcases List.mem_cons.mp hv with hv | hv
      · subst hv
        rw [if_neg (by simp [less_irrefl has v]), if_neg (by simp [less_irrefl has v])]
        rfl
      · have hwv : less w v = true := (PT.allB_iff _ _).mp halr v hv
        rw [if_neg (by simp [has w v hwv]), if_pos hwv]
        exact ihr hbr hv

/-! Tree-level lemmas: how `Insert` and `Delete` unfold, and preservation
of the representation invariant. -/

theorem GoTree.insert_found_eq {less : α → α → Bool} {T : GoTree α} {v : α}
    {n : PT α} (hf : PT.Find less T.root v = some n) :
    GoTree.Insert less T v = (⟨T.root, T.size, T.fresh⟩, n) := by
  have hins : PT.insFix less v T.fresh none T.root = (T.root, false, n) :=
    PT.insFix_found hf
  simp [GoTree.Insert, hins]

theorem GoTree.insert_new_eq {less : α → α → Bool} {T : GoTree α} {v : α}
    (hf : PT.Find less T.root v = none) :
    GoTree.Insert less T v
      = (⟨PT.graftAt T.root (PT.descPath less v T.root)
            (PT.node T.fresh v (PT.lastV less v T.root none) PT.leaf PT.leaf),
          T.size + 1, T.fresh + 1⟩,
         PT.node T.fresh v (PT.lastV less v T.root none) PT.leaf PT.leaf) := by
  have hins : PT.insFix less v T.fresh none T.root
      = (PT.graftAt T.root (PT.descPath less v T.root)
          (PT.node T.fresh v (PT.lastV less v T.root none) PT.leaf PT.leaf), true,
         PT.node T.fresh v (PT.lastV less v T.root none) PT.leaf PT.leaf) :=
    PT.insFix_new hf
  simp [GoTree.Insert, hins]

theorem GoTree.insert_TreeInv {less : α → α → Bool} {T : GoTree α} {v : α}
    (h : TreeInv less T) : TreeInv less (GoTree.Insert less T v).1 := by
  obtain ⟨hb, hp, hn, hbound, hsz⟩ := h
  cases hf : PT.Find less T.root v with
  | some n =>
    rw [GoTree.insert_found_eq hf]
    exact ⟨hb, hp, hn, hbound, hsz⟩
  | none =>
    have hI := GoTree.insert_new_eq hf
    have hbst2 : PT.isBST less (PT.insFix less v T.fresh none T.root).1 = true :=
      PT.isBST_insFix hb
    have hpar2 : PT.parentOK none (PT.insFix less v T.fresh none T.root).1 = true :=
      PT.parentOK_insFix hp
    obtain ⟨xs, ys, as, bs, h1, h2, h3, h4⟩ := PT.insFix_splice (f := T.fresh) hf
    have hins : PT.insFix less v T.fresh none T.root
        = (PT.graftAt T.root (PT.descPath less v T.root)
            (PT.node T.fresh v (PT.lastV less v T.root none) PT.leaf PT.leaf), true,
           PT.node T.fresh v (PT.lastV less v T.root none) PT.leaf PT.leaf) :=
      PT.insFix_new hf
    rw [hins] at hbst2 hpar2 h2 h4
    rw [hI]
    refine ⟨hbst2, hpar2, ?_, ?_, ?_⟩
    · show (PT.ids (PT.graftAt T.root (PT.descPath less v T.root)
          (PT.node T.fresh v (PT.lastV less v T.root none) PT.leaf PT.leaf))).Nodup
      rw [h4]
      rw [List.nodup_middle]
      rw [List.nodup_cons]
      constructor
      · intro hmem
        have hlt := hbound T.fresh (by rw [h3]; exact hmem)
        omega
      · rw [← h3]
        exact hn
    · intro j hj
      show j < T.fresh + 1
      rw [h4] at hj
      rcases List.mem_append.mp hj with hj | hj
      · have := hbound j (by rw [h3]; exact List.mem_append_left _ hj)
        omega
      · rcases List.mem_cons.mp hj with hj | hj
        · omega
        · have := hbound j (by rw [h3]; exact List.mem_append_right _ hj)
          omega
    · show T.size + 1 = _
      rw [h2, hsz, h1]
      simp
      omega

theorem GoTree.delete_none_eq {less : α → α → Bool} {T : GoTree α} {v : α}
    (hf : PT.Find less T.root v = none) :
    GoTree.Delete less T v = (T, false) := by
  simp [GoTree.Delete, hf]

theorem GoTree.delete_some_eq {less : α → α → Bool} {T : GoTree α} {v : α}
    {n : PT α} (hf : PT.Find less T.root v = some n) :
    GoTree.Delete less T v
      = (⟨PT.delFix less v T.root, T.size - 1, T.fresh⟩, true) := by
  simp [GoTree.Delete, hf]

theorem GoTree.delete_TreeInv {less : α → α → Bool}
    (htr : ∀ a b c, less a b = true → less b c = true → less a c = true)
    (hcn : ∀ a b, less a b = false → less b a = false → a = b)
    {T : GoTree α} {v : α}
    (h : TreeInv less T) : TreeInv less (GoTree.Delete less T v).1 := by
  obtain ⟨hb, hp, hn, hbound, hsz⟩ := h
  cases hf : PT.Find less T.root v with
  | none =>
    rw [GoTree.delete_none_eq hf]
    exact ⟨hb, hp, hn, hbound, hsz⟩
  | some n =>
    rw [GoTree.delete_some_eq hf]
    obtain ⟨⟨xs, ys, h1, h2⟩, hsub, hbst2, hpar2⟩ :=
      PT.delFix_spec htr hcn hb hp hn hf
    refine ⟨hbst2, hpar2, hn.sublist hsub, ?_, ?_⟩
    · intro j hj
      exact hbound j (hsub.subset hj)
    · show T.size - 1 = _
      rw [h2, hsz, h1]
      simp
      omega

theorem GoTree.init_TreeInv {less : α → α → Bool} :
    ∀ (vs : List α) {T : GoTree α}, TreeInv less T →
    TreeInv less (GoTree.Init less T vs) := by
  intro vs
  induction vs with
  | nil => intro T h; exact h
  | cons v vs ih =>
    intro T h
    show TreeInv less (GoTree.Init less (GoTree.Insert less T v).1 vs)
    exact ih (GoTree.insert_TreeInv h)

theorem GoTree.randLoop_TreeInv {less : α → α → Bool} {rs : Nat → Nat}
    {vs : List α} :
    ∀ (k : Nat) {T T2 : GoTree α} {idx : List Nat}, TreeInv less T →
    GoTree.randLoop less rs vs T idx k = some T2 → TreeInv less T2 := by
  intro k
  induction k with
  | zero =>
    intro T T2 idx h he
    simp only [GoTree.randLoop, Option.some_inj] at he
    exact he ▸ h
  | succ k ih =>
    intro T T2 idx h he
    simp only [GoTree.randLoop] at he
    cases h1 : idx[rs k]? with
    | none => rw [h1] at he; exact absurd he (by simp)
    | some j =>
      rw [h1, Option.some_bind] at he
      cases h2 : vs[j]? with
      | none => rw [h2] at he; exact absurd he (by simp)
      | some v =>
        rw [h2, Option.some_bind] at he
        cases h3 : idx[k]? with
        | none => rw [h3] at he; exact absurd he (by simp)
        | some jk =>
          rw [h3, Option.some_bind] at he
          exact ih (GoTree.insert_TreeInv h) he

theorem GoTree.randInit_TreeInv {less : α → α → Bool} {rs : Nat → Nat}
    {vs : List α} {T T2 : GoTree α} (h : TreeInv less T)
    (he : GoTree.RandInit less T vs rs = some T2) : TreeInv less T2 :=
  GoTree.randLoop_TreeInv vs.length h he

theorem applyOp_TreeInv {less : α → α → Bool}
    (htr : ∀ a b c, less a b = true → less b c = true → less a c = true)
    (hcn : ∀ a b, less a b = false → less b a = false → a = b)
    {T T2 : GoTree α} {o : Op α} (h : TreeInv less T)
    (he : applyOp less T o = some T2) : TreeInv less T2 := by
  cases o with
  | insv v =>
    simp only [applyOp, Option.some_inj] at he
    exact he ▸ GoTree.insert_TreeInv h
  | delv v =>
    simp only [applyOp, Option.some_inj] at he
    exact he ▸ GoTree.delete_TreeInv htr hcn h
  | initv vs =>
    simp only [applyOp, Option.some_inj] at he
    exact he ▸ GoTree.init_TreeInv vs h
  | randv vs rs =>
    exact GoTree.randInit_TreeInv h he

theorem applyOps_TreeInv {less : α → α → Bool}
    (htr : ∀ a b c, less a b = true → less b c = true → less a c = true)
    (hcn : ∀ a b, less a b = false → less b a = false → a = b) :
    ∀ (ops : List (Op α)) {T T2 : GoTree α}, TreeInv less T →
    applyOps less T ops = some T2 → TreeInv less T2 := by
  intro ops
  induction ops with
  | nil =>
    intro T T2 h he
    simp only [applyOps, Option.some_inj] at he
    exact he ▸ h
  | cons o os ih =>
    intro T T2 h he
    simp only [applyOps, Option.bind_eq_bind] at he
    rcases Option.bind_eq_some.mp he with ⟨T3, h1, h2⟩
    exact ih (applyOp_TreeInv htr hcn h h1) h2

theorem treeInv_New {α : Type} {less : α → α → Bool} :
    TreeInv less (GoTree.New : GoTree α) := by
  refine ⟨rfl, rfl, List.nodup_nil, ?_, rfl⟩
  intro j hj
  simp [PT.ids, GoTree.New] at hj

theorem lessOK_ltInt : LessOK ltInt := by
  refine ⟨?_, ?_, ?_⟩
  · intro a b h
    simp only [ltInt, decide_eq_true_eq] at h
    simp only [ltInt, decide_eq_false_iff_not]
    omega
  · intro a b c h1 h2
    simp only [ltInt, decide_eq_true_eq] at h1 h2
    simp only [ltInt, decide_eq_true_eq]
    omega
  · intro a b h1 h2
    simp only [ltInt, decide_eq_false_iff_not] at h1 h2
    omega

/-- C1: every tree reachable from the empty tree by any sequence of
`Insert` and `Delete` operations (including the sequences performed by
`Init` and `RandInit`) satisfies, after every operation, the three
invariants: (1) the BST ordering property under the comparator, (2) parent
consistency — every child's stored parent pointer names the node it hangs
under and the root's parent pointer is nil — and (3) the size field equal
to the number of nodes reachable from the root. -/
theorem claim_C1 {α : Type} {less : α → α → Bool} (hL : LessOK less)
    (ops : List (Op α)) (T : GoTree α)
    (h : applyOps less GoTree.New ops = some T) :
    PT.isBST less T.root = true ∧
    PT.parentOK none T.root = true ∧
    T.size = ((PT.inorder T.root).length : Int) := by
  obtain ⟨hb, hp, hn, hbound, hsz⟩ :=
    applyOps_TreeInv hL.lt_trans hL.conn ops treeInv_New h
  exact ⟨hb, hp, hsz⟩

/-- Witness for C1 at a concrete operation sequence over `Int`. -/
theorem claim_C1_witness :
    PT.isBST ltInt resC1.root = true ∧
    PT.parentOK none resC1.root = true ∧
    resC1.size = ((PT.inorder resC1.root).length : Int) :=
  claim_C1 lessOK_ltInt opsC1 resC1 (by decide)

theorem PT.find_subtree_mem {less : α → α → Bool} {v : α} :
    ∀ {t n : PT α}, PT.Find less t v = some n →
    ∀ x ∈ PT.inorder n, x ∈ PT.inorder t := by
  intro t
  induction t with
  | leaf => intro n hf; simp [PT.Find] at hf
  | node i w p l r ihl ihr =>
    intro n hf x hx
    rw [PT.find_red] at hf
    have hmem : PT.inorder (PT.node i w p l r)
        = PT.inorder l ++ w :: PT.inorder r := rfl
    rw [hmem]
    by_cases hvw : less v w = true
    · rw [if_pos hvw] at hf
      exact List.mem_append_left _ (ihl hf x hx)
    · rw [if_neg (by simp [hvw])] at hf
      by_cases hwv : less w v = true
      · rw [if_pos hwv] at hf
        exact List.mem_append_right _ (List.mem_cons_of_mem _ (ihr hf x hx))
      · rw [if_neg (by simp [hwv])] at hf
        simp only [Option.some_inj] at hf
        rw [← hf, hmem] at hx
        exact hx

theorem PT.find_isBST {less : α → α → Bool} {v : α} :
    ∀ {t n : PT α}, PT.isBST less t = true → PT.Find less t v = some n →
    PT.isBST less n = true := by
  intro t
  induction t with
  | leaf => intro n _ hf; simp [PT.Find] at hf
  | node i w p l r ihl ihr =>
    intro n hb hf
    obtain ⟨hall, halr, hbl, hbr⟩ := PT.isBST_node_iff.mp hb
    rw [PT.find_red] at hf
    by_cases hvw : less v w = true
    · rw [if_pos hvw] at hf
      exact ihl hbl hf
    · rw [if_neg (by simp [hvw])] at hf
      by_cases hwv : less w v = true
      · rw [if_pos hwv] at hf
        exact ihr hbr hf
      · rw [if_neg (by simp [hwv])] at hf
        simp only [Option.some_inj] at hf
        exact hf ▸ hb

theorem PT.find_val {less : α → α → Bool} {v : α} :
    ∀ {t : PT α} {i : Nat} {w : α} {p : Option Nat} {l r : PT α},
    PT.Find less t v = some (PT.node i w p l r) →
    less v w = false ∧ less w v = false := by
  intro t
  induction t with
  | leaf => intro i w p l r hf; simp [PT.Find] at hf
  | node i2 w2 p2 l2 r2 ihl ihr =>
    intro i w p l r hf
    rw [PT.find_red] at hf
    by_cases hvw : less v w2 = true
    · rw [if_pos hvw] at hf
      exact ihl hf
    · rw [if_neg (by simp [hvw])] at hf
      by_cases hwv : less w2 v = true
      · rw [if_pos hwv] at hf
        exact ihr hf
      · rw [if_neg (by simp [hwv])] at hf
        simp only [Option.some_inj, PT.node.injEq] at hf
        obtain ⟨_, hw, _, _, _⟩ := hf
        rw [← hw]
        constructor
        · revert hvw; cases less v w2 <;> simp
        · revert hwv; cases less w2 v <;> simp

theorem pairwise_middle_not_mem {less : α → α → Bool}
    (has : ∀ a b, less a b = true → less b a = false)
    {xs ys : List α} {v : α}
    (h : List.Pairwise (fun a b => less a b = true) (xs ++ v :: ys)) :
    v ∉ xs ∧ v ∉ ys := by
  rw [List.pairwise_append] at h
  obtain ⟨h1, h2, h3⟩ := h
  constructor
  · intro hv
    have := h3 v hv v (List.mem_cons_self _ _)
    rw [less_irrefl has v] at this
    exact absurd this Bool.false_ne_true
  · intro hv
    have := (List.pairwise_cons.mp h2).1 v hv
    rw [less_irrefl has v] at this
    exact absurd this Bool.false_ne_true

/-- C4: `Delete(v)` returns true exactly when the tree contains a node
comparator-equal to `v` (which, for a self-consistent strict comparator,
is membership of `v` in the stored values); on false the tree is returned
completely unchanged; on true the size drops by exactly one — both the
size field and the actual node count — and deleting `v` again returns
false. -/
theorem claim_C4 {α : Type} {less : α → α → Bool} (hL : LessOK less)
    {T : GoTree α} {v : α} (hInv : TreeInv less T) :
    (GoTree.Delete less T v).2 = GoTree.Contains less T v ∧
    (GoTree.Contains less T v = true ↔ v ∈ PT.inorder T.root) ∧
    ((GoTree.Delete less T v).2 = false → (GoTree.Delete less T v).1 = T) ∧
    ((GoTree.Delete less T v).2 = true →
      (GoTree.Delete less T v).1.size = T.size - 1 ∧
      (PT.inorder (GoTree.Delete less T v).1.root).length + 1
        = (PT.inorder T.root).length ∧
      (GoTree.Delete less (GoTree.Delete less T v).1 v).2 = false) := by
  obtain ⟨hb, hp, hn, hbound, hsz⟩ := hInv
  have hcont : GoTree.Contains less T v = true ↔ v ∈ PT.inorder T.root := by
    constructor
    · intro hc
      unfold GoTree.Contains at hc
      cases hf2 : PT.Find less T.root v with
      | none => rw [hf2] at hc; simp at hc
      | some n => exact PT.find_mem hL.conn hf2
    · intro hm
      exact PT.mem_find hL.asymm hb hm
  cases hf : PT.Find less T.root v with
  | none =>
    rw [GoTree.delete_none_eq hf]
    refine ⟨?_, hcont, fun _ => rfl, ?_⟩
    · show false = GoTree.Contains less T v
      unfold GoTree.Contains
      rw [hf]
      rfl
    · intro hcon
      exact absurd hcon (by simp)
  | some n =>
    rw [GoTree.delete_some_eq hf]
    obtain ⟨⟨xs, ys, h1, h2⟩, hsub, hbst2, hpar2⟩ :=
      PT.delFix_spec hL.lt_trans hL.conn hb hp hn hf
    have hpw := PT.pairwise_inorder hL.lt_trans hb
    rw [h1] at hpw
    obtain ⟨hvxs, hvys⟩ := pairwise_middle_not_mem hL.asymm hpw
    refine ⟨?_, hcont, ?_, ?_⟩
    · show true = GoTree.Contains less T v
      unfold GoTree.Contains
      rw [hf]
      rfl
    · intro hcon
      exact absurd hcon (by simp)
    · intro _
      refine ⟨rfl, ?_, ?_⟩
      · show (PT.inorder (PT.delFix less v T.root)).length + 1 = _
        rw [h1, h2]
        simp
        omega
      · have hnomem : v ∉ PT.inorder (PT.delFix less v T.root) := by
          rw [h2]
          intro hv
          rcases List.mem_append.mp hv with hv | hv
          · exact hvxs hv
          · exact hvys hv
        cases hf2 : PT.Find less (PT.delFix less v T.root) v with
        | none =>
          have : GoTree.Delete less
              (⟨PT.delFix less v T.root, T.size - 1, T.fresh⟩ : GoTree α) v
              = (⟨PT.delFix less v T.root, T.size - 1, T.fresh⟩, false) :=
            GoTree.delete_none_eq hf2
          rw [this]
        | some n2 =>
          exact absurd (PT.find_mem hL.conn hf2) hnomem

/-- Witness for C4 on the first test fixture with the absent/present value 5. -/
theorem claim_C4_witness :
    (GoTree.Delete ltInt exT1 5).2 = GoTree.Contains ltInt exT1 5 ∧
    (GoTree.Contains ltInt exT1 5 = true ↔ (5 : Int) ∈ PT.inorder exT1.root) ∧
    ((GoTree.Delete ltInt exT1 5).2 = false → (GoTree.Delete ltInt exT1 5).1 = exT1) ∧
    ((GoTree.Delete ltInt exT1 5).2 = true →
      (GoTree.Delete ltInt exT1 5).1.size = exT1.size - 1 ∧
      (PT.inorder (GoTree.Delete ltInt exT1 5).1.root).length + 1
        = (PT.inorder exT1.root).length ∧
      (GoTree.Delete ltInt (GoTree.Delete ltInt exT1 5).1 5).2 = false) :=
  claim_C4 lessOK_ltInt (by decide)

/-- C2: deleting a value `v` stored at a node with both a left and a right
child returns true and produces a tree whose in-order value sequence is
the old sequence with exactly `v` removed; in particular no value of the
node's original right subtree is lost.  This covers both two-child
sub-cases of `removeNode`, including the one where the in-order successor
lies strictly below `n.right`. -/
theorem claim_C2 {α : Type} {less : α → α → Bool} (hL : LessOK less)
    {T : GoTree α} {v : α} {i : Nat} {w : α} {p : Option Nat} {l r : PT α}
    (hInv : TreeInv less T)
    (hf : GoTree.Find less T v = some (PT.node i w p l r))
    (hl : l ≠ PT.leaf) (hr : r ≠ PT.leaf) :
    (GoTree.Delete less T v).2 = true ∧
    (∃ xs ys, PT.inorder T.root = xs ++ v :: ys ∧
      PT.inorder (GoTree.Delete less T v).1.root = xs ++ ys) ∧
    (∀ x ∈ PT.inorder r, x ∈ PT.inorder (GoTree.Delete less T v).1.root) := by
  obtain ⟨hb, hp, hn, hbound, hsz⟩ := hInv
  have hf' : PT.Find less T.root v = some (PT.node i w p l r) := hf
  obtain ⟨hvw, hwv⟩ := PT.find_val hf'
  have hweq : w = v := hL.conn w v hwv hvw
  subst hweq
  rw [GoTree.delete_some_eq hf']
  obtain ⟨⟨xs, ys, h1, h2⟩, hsub, hbst2, hpar2⟩ :=
    PT.delFix_spec hL.lt_trans hL.conn hb hp hn hf'
  refine ⟨rfl, ⟨xs, ys, h1, h2⟩, ?_⟩
  intro x hx
  have hxt : x ∈ PT.inorder T.root := by
    refine PT.find_subtree_mem hf' x ?_
    show x ∈ PT.inorder l ++ w :: PT.inorder r
    exact List.mem_append_right _ (List.mem_cons_of_mem _ hx)
  have hbn := PT.find_isBST hb hf'
  obtain ⟨hall, halr, hbl2, hbr2⟩ := PT.isBST_node_iff.mp hbn
  have hwx : less w x = true := (PT.allB_iff _ _).mp halr x hx
  have hxnev : x ≠ w := by
    intro hxe
    subst hxe
    rw [less_irrefl hL.asymm x] at hwx
    exact absurd hwx Bool.false_ne_true
  show x ∈ PT.inorder (PT.delFix less w T.root)
  rw [h2]
  rw [h1] at hxt
  rcases List.mem_append.mp hxt with hx2 | hx2
  · exact List.mem_append_left _ hx2
  · rcases List.mem_cons.mp hx2 with hx2 | hx2
    · exact absurd hx2 hxnev
    · exact List.mem_append_right _ hx2

/-- Witness for C2: deleting the root value 5 of the first fixture, whose
node has two children and whose in-order successor 6 lies strictly below
its right child 7. -/
theorem claim_C2_witness :
    (GoTree.Delete ltInt exT1 5).2 = true ∧
    (∃ xs ys, PT.inorder exT1.root = xs ++ (5 : Int) :: ys ∧
      PT.inorder (GoTree.Delete ltInt exT1 5).1.root = xs ++ ys) ∧
    (∀ x ∈ PT.inorder (PT.node 2 (7 : Int) (some 0)
        (PT.node 5 6 (some 2) PT.leaf PT.leaf)
        (PT.node 6 9 (some 2) (PT.node 8 8 (some 6) PT.leaf PT.leaf) PT.leaf)),
      x ∈ PT.inorder (GoTree.Delete ltInt exT1 5).1.root) :=
  @claim_C2 Int ltInt lessOK_ltInt exT1 5 0 5 none
    (PT.node 1 2 (some 0) (PT.node 4 1 (some 1) PT.leaf PT.leaf)
      (PT.node 3 3 (some 1) PT.leaf (PT.node 7 4 (some 3) PT.leaf PT.leaf)))
    (PT.node 2 7 (some 0) (PT.node 5 6 (some 2) PT.leaf PT.leaf)
      (PT.node 6 9 (some 2) (PT.node 8 8 (some 6) PT.leaf PT.leaf) PT.leaf))
    (by decide) (by decide) (by decide) (by decide)

theorem PT.descPath_nil {less : α → α → Bool} {v : α} :
    ∀ {t : PT α}, PT.Find less t v = none → PT.descPath less v t = [] →
    t = PT.leaf := by
  intro t
  cases t with
  | leaf => intro _ _; rfl
  | node i w p l r =>
    intro hf hd
    rw [PT.find_red] at hf
    by_cases hvw : less v w = true
    · rw [show PT.descPath less v (PT.node i w p l r)
        = if less v w then Dir.L :: PT.descPath less v l
          else if less w v then Dir.R :: PT.descPath less v r
          else [] from rfl, if_pos hvw] at hd
      exact absurd hd (by simp)
    · by_cases hwv : less w v = true
      · rw [show PT.descPath less v (PT.node i w p l r)
          = if less v w then Dir.L :: PT.descPath less v l
            else if less w v then Dir.R :: PT.descPath less v r
            else [] from rfl, if_neg (by simp [hvw]), if_pos hwv] at hd
        exact absurd hd (by simp)
      · rw [if_neg (by simp [hvw]), if_neg (by simp [hwv])] at hf
        exact absurd hf (by simp)

theorem PT.subAt_descPath {less : α → α → Bool} {v : α} :
    ∀ {t : PT α}, PT.Find less t v = none →
    PT.subAt t (PT.descPath less v t) = some PT.leaf := by
  intro t
  induction t with
  | leaf => intro _; rfl
  | node i w p l r ihl ihr =>
    intro hf
    rw [PT.find_red] at hf
    by_cases hvw : less v w = true
    · rw [if_pos hvw] at hf
      rw [show PT.descPath less v (PT.node i w p l r)
        = if less v w then Dir.L :: PT.descPath less v l
          else if less w v then Dir.R :: PT.descPath less v r
          else [] from rfl, if_pos hvw]
      exact ihl hf
    · by_cases hwv : less w v = true
      · rw [if_neg (by simp [hvw]), if_pos hwv] at hf
        rw [show PT.descPath less v (PT.node i w p l r)
          = if less v w then Dir.L :: PT.descPath less v l
            else if less w v then Dir.R :: PT.descPath less v r
            else [] from rfl, if_neg (by simp [hvw]), if_pos hwv]
        exact ihr hf
      · rw [if_neg (by simp [hvw]), if_neg (by simp [hwv])] at hf
        exact absurd hf (by simp)

theorem PT.desc_last {less : α → α → Bool} {v : α} :
    ∀ {t : PT α} {q : List Dir} {d : Dir},
    PT.Find less t v = none →
    PT.descPath less v t = q ++ [d] →
    ∃ pi pv pq pl pr, PT.subAt t q = some (PT.node pi pv pq pl pr) ∧
      (∀ acc, PT.lastV less v t acc = some pi) ∧
      ((d = Dir.L) ↔ less v pv = true) := by
  intro t
  induction t with
  | leaf =>
    intro q d _ hd
    rw [show PT.descPath less v PT.leaf = [] from rfl] at hd
    exact absurd hd.symm (List.append_ne_nil_of_right_ne_nil _ (by simp))
  | node i w p l r ihl ihr =>
    intro q d hf hd
    rw [PT.find_red] at hf
    rw [show PT.descPath less v (PT.node i w p l r)
      = if less v w then Dir.L :: PT.descPath less v l
        else if less w v then Dir.R :: PT.descPath less v r
        else [] from rfl] at hd
    have hlast : ∀ acc, PT.lastV less v (PT.node i w p l r) acc
        = if less v w then PT.lastV less v l (some i)
          else if less w v then PT.lastV less v r (some i)
          else some i := fun acc => rfl
    by_cases hvw : less v w = true
    · rw [if_pos hvw] at hf hd
      cases q with
      | nil =>
        simp only [List.nil_append, List.cons_eq_cons] at hd
        obtain ⟨hdl, hnil⟩ := hd
        have hleaf : l = PT.leaf := PT.descPath_nil hf hnil
        subst hleaf
        refine ⟨i, w, p, PT.leaf, r, rfl, ?_, ?_⟩
        · intro acc
          rw [hlast acc, if_pos hvw]
          rfl
        · simp [← hdl, hvw]
      | cons qh qt =>
        simp only [List.cons_append, List.cons_eq_cons] at hd
        obtain ⟨hqh, hrest⟩ := hd
        obtain ⟨pi, pv, pq, pl, pr, hsub, hlv, hiff⟩ := ihl hf hrest
        refine ⟨pi, pv, pq, pl, pr, ?_, ?_, hiff⟩
        · rw [← hqh]
          exact hsub
        · intro acc
          rw [hlast acc, if_pos hvw]
          exact hlv (some i)
    · rw [if_neg (by simp [hvw])] at hd
      by_cases hwv : less w v = true
      · rw [if_neg (by simp [hvw]), if_pos hwv] at hf
        rw [if_pos hwv] at hd
        cases q with
        | nil =>
          simp only [List.nil_append, List.cons_eq_cons] at hd
          obtain ⟨hdl, hnil⟩ := hd
          have hleaf : r = PT.leaf := PT.descPath_nil hf hnil
          subst hleaf
          refine ⟨i, w, p, l, PT.leaf, rfl, ?_, ?_⟩
          · intro acc
            rw [hlast acc, if_neg (by simp [hvw]), if_pos hwv]
            rfl
          · constructor
            · intro hdd
              rw [hdd] at hdl
              exact absurd hdl (by simp)
            · intro hcon
              rw [hcon] at hvw
              exact absurd rfl hvw
        | cons qh qt =>
          simp only [List.cons_append, List.cons_eq_cons] at hd
          obtain ⟨hqh, hrest⟩ := hd
          obtain ⟨pi, pv, pq, pl, pr, hsub, hlv, hiff⟩ := ihr hf hrest
          refine ⟨pi, pv, pq, pl, pr, ?_, ?_, hiff⟩
          · rw [← hqh]
            exact hsub
          · intro acc
            rw [hlast acc, if_neg (by simp [hvw]), if_pos hwv]
            exact hlv (some i)
      · rw [if_neg (by simp [hvw]), if_neg (by simp [hwv])] at hf
        exact absurd hf (by simp)

/-- C3: inserting a value already comparator-equal to a stored one returns
the existing node with the tree completely unchanged (same root, size and
allocator state); otherwise `Insert` creates a brand-new node carrying
`v`, no children, and as stored parent pointer the last non-nil node the
find-style descent visited, grafts it exactly at the nil slot where that
descent ended (as root when the tree was empty; as the left child of the
last node when `less v parent.val`, as its right child otherwise),
increments the size by exactly one, and returns the new node. -/
theorem claim_C3 {α : Type} {less : α → α → Bool} (T : GoTree α) (v : α) :
    (∀ n, PT.Find less T.root v = some n → GoTree.Insert less T v = (T, n)) ∧
    (PT.Find less T.root v = none →
      GoTree.Insert less T v
        = (⟨PT.graftAt T.root (PT.descPath less v T.root)
              (PT.node T.fresh v (PT.lastV less v T.root none) PT.leaf PT.leaf),
            T.size + 1, T.fresh + 1⟩,
           PT.node T.fresh v (PT.lastV less v T.root none) PT.leaf PT.leaf) ∧
      PT.subAt T.root (PT.descPath less v T.root) = some PT.leaf ∧
      (T.root = PT.leaf →
        (GoTree.Insert less T v).1.root
          = PT.node T.fresh v none PT.leaf PT.leaf) ∧
      (∀ q d, PT.descPath less v T.root = q ++ [d] →
        ∃ pi pv pq pl pr, PT.subAt T.root q = some (PT.node pi pv pq pl pr) ∧
          PT.lastV less v T.root none = some pi ∧
          ((d = Dir.L) ↔ less v pv = true))) := by
  constructor
  · intro n hf
    rw [GoTree.insert_found_eq hf]
  · intro hf
    refine ⟨GoTree.insert_new_eq hf, PT.subAt_descPath hf, ?_, ?_⟩
    · intro hroot
      rw [GoTree.insert_new_eq hf]
      show PT.graftAt T.root (PT.descPath less v T.root)
          (PT.node T.fresh v (PT.lastV less v T.root none) PT.leaf PT.leaf) = _
      rw [hroot]
      rfl
    · intro q d hd
      obtain ⟨pi, pv, pq, pl, pr, hsub, hlv, hiff⟩ := PT.desc_last hf hd
      exact ⟨pi, pv, pq, pl, pr, hsub, hlv none, hiff⟩

/-- Witness for C3: inserting the absent value 10 into the first fixture. -/
theorem claim_C3_witness :
    GoTree.Insert ltInt exT1 10
      = (⟨PT.graftAt exT1.root (PT.descPath ltInt 10 exT1.root)
            (PT.node exT1.fresh 10 (PT.lastV ltInt 10 exT1.root none) PT.leaf PT.leaf),
          exT1.size + 1, exT1.fresh + 1⟩,
         PT.node exT1.fresh 10 (PT.lastV ltInt 10 exT1.root none) PT.leaf PT.leaf) :=
  ((claim_C3 exT1 10).2 (by decide)).1

/-- C9: all query operations on an empty tree (nil root) return the empty
default and never fault: `Find` and `Min` and `Max` give nil, `Contains`
gives false, `Height` gives 0. -/
theorem claim_C9 {α : Type} {less : α → α → Bool} (T : GoTree α) (v : α)
    (h : T.root = PT.leaf) :
    GoTree.Find less T v = none ∧ GoTree.Contains less T v = false ∧
    GoTree.Min T = none ∧ GoTree.Max T = none ∧ GoTree.Height T = 0 := by
  unfold GoTree.Find GoTree.Contains GoTree.Min GoTree.Max GoTree.Height
  rw [h]
  exact ⟨rfl, rfl, rfl, rfl, rfl⟩

/-- Witness for C9 at the freshly created empty tree. -/
theorem claim_C9_witness :
    GoTree.Find ltInt GoTree.New 7 = none ∧
    GoTree.Contains ltInt GoTree.New 7 = false ∧
    GoTree.Min (GoTree.New : GoTree Int) = none ∧
    GoTree.Max (GoTree.New : GoTree Int) = none ∧
    GoTree.Height (GoTree.New : GoTree Int) = 0 :=
  claim_C9 GoTree.New 7 (by decide)

theorem PT.insFix_rightChain {less : α → α → Bool} {v : α}
    (has : ∀ a b, less a b = true → less b a = false) :
    ∀ (l : List (Nat × α)) (pp : Option Nat) (f : Nat),
    (∀ x ∈ l, less x.2 v = true) →
    PT.insFix less v f pp (rightChain l pp)
      = (rightChain (l ++ [(f, v)]) pp, true,
         PT.node f v (match l.getLast? with
           | none => pp
           | some kv => some kv.1) PT.leaf PT.leaf) := by
  intro l
  induction l with
  | nil =>
    intro pp f _
    rfl
  | cons kw l ih =>
    intro pp f hlt
    obtain ⟨k, w⟩ := kw
    have hwv : less w v = true := hlt (k, w) (List.mem_cons_self _ _)
    have hvw : less v w = false := has w v hwv
    show PT.insFix less v f pp (PT.node k w pp PT.leaf (rightChain l (some k))) = _
    rw [PT.insFix_red, if_neg (by simp [hvw]), if_pos hwv]
    rw [ih (some k) f (fun x hx => hlt x (List.mem_cons_of_mem _ hx))]
    cases l with
    | nil => rfl
    | cons kw2 l2 => rfl

theorem init_sorted {less : α → α → Bool}
    (has : ∀ a b, less a b = true → less b a = false)
    (htr : ∀ a b c, less a b = true → less b c = true → less a c = true) :
    ∀ (vs : List α) (l : List (Nat × α)) (sz : Int) (fr : Nat),
    List.Chain' (fun a b => less a b = true) vs →
    (∀ x ∈ l, ∀ u ∈ vs, less x.2 u = true) →
    ∃ l2 : List (Nat × α),
      GoTree.Init less ⟨rightChain l none, sz, fr⟩ vs
        = ⟨rightChain l2 none, sz + vs.length, fr + vs.length⟩ ∧
      l2.length = l.length + vs.length := by
  intro vs
  induction vs with
  | nil =>
    intro l sz fr _ _
    refine ⟨l, ?_, by simp⟩
    show (⟨rightChain l none, sz, fr⟩ : GoTree α) = _
    simp
  | cons v vs ih =>
    intro l sz fr hch hlt
    have hstep : PT.insFix less v fr none (rightChain l none)
        = (rightChain (l ++ [(fr, v)]) none, true,
           PT.node fr v (match l.getLast? with
             | none => none
             | some kv => some kv.1) PT.leaf PT.leaf) :=
      PT.insFix_rightChain has l none fr
        (fun x hx => hlt x hx v (List.mem_cons_self _ _))
    have hins : (GoTree.Insert less (⟨rightChain l none, sz, fr⟩ : GoTree α) v).1
        = ⟨rightChain (l ++ [(fr, v)]) none, sz + 1, fr + 1⟩ := by
      show (GoTree.Insert less ⟨rightChain l none, sz, fr⟩ v).1 = _
      unfold GoTree.Insert
      rw [show (⟨rightChain l none, sz, fr⟩ : GoTree α).root = rightChain l none from rfl,
        show (⟨rightChain l none, sz, fr⟩ : GoTree α).fresh = fr from rfl]
      rw [hstep]
      rfl
    haveI : IsTrans α (fun a b => less a b = true) := ⟨fun a b c => htr a b c⟩
    have hpw := List.chain'_iff_pairwise.mp hch
    have hvall : ∀ u ∈ vs, less v u = true := (List.pairwise_cons.mp hpw).1
    have hch2 : List.Chain' (fun a b => less a b = true) vs := hch.tail
    have hlt2 : ∀ x ∈ l ++ [(fr, v)], ∀ u ∈ vs, less x.2 u = true := by
      intro x hx u hu
      rcases List.mem_append.mp hx with hx | hx
      · exact hlt x hx u (List.mem_cons_of_mem _ hu)
      · rcases List.mem_cons.mp hx with hx | hx
        · rw [hx]
          exact hvall u hu
        · simp at hx
    obtain ⟨l2, heq, hlen⟩ := ih (l ++ [(fr, v)]) (sz + 1) (fr + 1) hch2 hlt2
    refine ⟨l2, ?_, ?_⟩
    · show GoTree.Init less (GoTree.Insert less ⟨rightChain l none, sz, fr⟩ v).1 vs = _
      rw [hins, heq]
      have h1 : sz + 1 + (vs.length : Int) = sz + ((vs.length : Int) + 1) := by omega
      have h2 : fr + 1 + vs.length = fr + (vs.length + 1) := by omega
      rw [h1, h2]
      simp
    · rw [hlen]
      simp only [List.length_append, List.length_cons, List.length_nil]
      omega

theorem height_rightChain : ∀ (l : List (Nat × α)) (pp : Option Nat),
    PT.Height (rightChain l pp) = (l.length : Int) := by
  intro l
  induction l with
  | nil => intro pp; rfl
  | cons kw l ih =>
    intro pp
    obtain ⟨k, w⟩ := kw
    show 1 + maxInt (PT.Height PT.leaf) (PT.Height (rightChain l (some k))) = _
    rw [ih (some k)]
    show 1 + maxInt 0 (l.length : Int) = ((l.length + 1 : Nat) : Int)
    unfold maxInt
    split
    · push_cast
      omega
    · push_cast
      omega

/-- Counterexample to C8 as stated: the slice `[1, 1]` is already sorted
under the comparator (no adjacent pair is out of order, i.e. weakly
ascending), has length 2, yet `Init` on it builds a tree of height 1 —
the second `Insert(1)` takes the equal-value no-op branch, so only one
node exists.  The height-equals-length property therefore holds only for
inputs that are strictly ascending (no comparator-equal repeats). -/
theorem claim_C8_counterexample :
    List.Chain' (fun a b : Int => ltInt b a = false) [1, 1] ∧
    ([1, 1] : List Int).length = 2 ∧
    GoTree.Height (GoTree.Init ltInt GoTree.New [1, 1])
      ≠ ((([1, 1] : List Int).length : Nat) : Int) := by
  refine ⟨?_, rfl, ?_⟩
  · norm_num [List.chain'_cons, List.chain'_singleton, ltInt]
  · decide

/-- C8: `Height` is 0 on an empty tree and `1 + maxInt(left, right)` on a
node, so a one-node tree has height 1; and `Init` on a strictly ascending
input of length n degenerates to a right spine of height exactly n. -/
theorem claim_C8 {α : Type} {less : α → α → Bool} (hL : LessOK less)
    (vs : List α) (hs : List.Chain' (fun a b => less a b = true) vs) :
    PT.Height (PT.leaf : PT α) = 0 ∧
    (∀ (i : Nat) (w : α) (p : Option Nat) (l r : PT α),
      PT.Height (PT.node i w p l r) = 1 + maxInt (PT.Height l) (PT.Height r)) ∧
    (∀ (i : Nat) (w : α) (p : Option Nat),
      PT.Height (PT.node i w p PT.leaf PT.leaf) = 1) ∧
    GoTree.Height (GoTree.Init less GoTree.New vs) = (vs.length : Int) := by
  refine ⟨rfl, fun i w p l r => rfl, fun i w p => by norm_num [PT.Height, maxInt], ?_⟩
  obtain ⟨l2, heq, hlen⟩ := init_sorted hL.asymm hL.lt_trans vs [] 0 0 hs
    (fun x hx => by simp at hx)
  have hnew : (GoTree.New : GoTree α) = ⟨rightChain [] none, 0, 0⟩ := rfl
  rw [hnew, heq]
  show PT.Height (rightChain l2 none) = _
  rw [height_rightChain]
  simp [hlen]

/-- Witness for C8 on a strictly ascending integer list. -/
theorem claim_C8_witness :
    PT.Height (PT.leaf : PT Int) = 0 ∧
    (∀ (i : Nat) (w : Int) (p : Option Nat) (l r : PT Int),
      PT.Height (PT.node i w p l r) = 1 + maxInt (PT.Height l) (PT.Height r)) ∧
    (∀ (i : Nat) (w : Int) (p : Option Nat),
      PT.Height (PT.node i w p PT.leaf PT.leaf) = 1) ∧
    GoTree.Height (GoTree.Init ltInt GoTree.New [1, 2, 3, 4, 5, 6, 7, 8, 9])
      = ((9 : Nat) : Int) :=
  claim_C8 lessOK_ltInt [1, 2, 3, 4, 5, 6, 7, 8, 9]
    (by norm_num [List.chain'_cons, List.chain'_singleton, ltInt])

/-! Serialization lemmas. -/

theorem PT.walkChars_eq (fm : α → List Char) : ∀ t : PT α,
    PT.walkChars fm t
      = (((PT.inorder t).map fm).map (fun s => s ++ [' '])).flatten := by
  intro t
  induction t with
  | leaf => rfl
  | node i v p l r ihl ihr =>
    show PT.walkChars fm l ++ (fm v ++ [' ']) ++ PT.walkChars fm r = _
    rw [ihl, ihr]
    show _ = (((PT.inorder l ++ v :: PT.inorder r).map fm).map
      (fun s => s ++ [' '])).flatten
    simp [List.map_append, List.flatten_append, List.map_cons,
      List.flatten_cons, List.append_assoc]

theorem flatten_seps (sp : List Char) : ∀ (xs : List (List Char)), xs ≠ [] →
    (xs.map (fun s => s ++ sp)).flatten = List.intercalate sp xs ++ sp := by
  intro xs
  induction xs with
  | nil => intro h; exact absurd rfl h
  | cons x t ih =>
    intro _
    cases t with
    | nil => simp [List.intercalate]
    | cons y t2 =>
      rw [List.map_cons, List.flatten_cons, ih (by simp)]
      show x ++ sp ++ (List.intercalate sp (y :: t2) ++ sp) = _
      rw [List.intercalate, List.intercalate, List.intersperse_cons_cons,
        List.flatten_cons, List.flatten_cons]
      simp [List.append_assoc]

theorem PT.inorder_ne_nil {i : Nat} {v : α} {p : Option Nat} {l r : PT α} :
    PT.inorder (PT.node i v p l r) ≠ [] := by
  show PT.inorder l ++ v :: PT.inorder r ≠ []
  simp

theorem PT.goString_eq (fm : α → List Char) : ∀ t : PT α,
    PT.goString fm t
      = some ('[' :: (List.intercalate [' '] ((PT.inorder t).map fm) ++ [']'])) := by
  intro t
  cases t with
  | leaf => rfl
  | node i v p l r =>
    show (PT.trunc (['['] ++ PT.walkChars fm (PT.node i v p l r))
        (((['['] ++ PT.walkChars fm (PT.node i v p l r)).length : Int) - 1)).map
        (fun b => b ++ [']']) = _
    rw [PT.walkChars_eq]
    rw [flatten_seps [' '] _ (by
      intro hcon
      exact PT.inorder_ne_nil (List.map_eq_nil_iff.mp hcon))]
    have hbuf : ['['] ++ (List.intercalate [' ']
          ((PT.inorder (PT.node i v p l r)).map fm) ++ [' '])
        = ('[' :: List.intercalate [' '] ((PT.inorder (PT.node i v p l r)).map fm))
          ++ [' '] := by
      simp
    rw [hbuf]
    set mid := '[' :: List.intercalate [' ']
      ((PT.inorder (PT.node i v p l r)).map fm) with hmid
    have hlen : ((mid ++ [' ']).length : Int) - 1 = (mid.length : Int) := by
      simp
    rw [hlen]
    unfold PT.trunc
    rw [if_pos (by constructor <;> simp)]
    have htake : (mid ++ [' ']).take ((mid.length : Int)).toNat = mid := by
      rw [Int.toNat_natCast]
      exact List.take_left _ _
    rw [htake]
    simp [hmid]

/-- C7: `Node.String` renders the bracket of the in-order value sequence,
each value in the caller-rendered form, separated by single spaces with no
trailing space before the closing bracket; an empty (nil) receiver renders
exactly as the two characters of an empty bracket, and `Tree.String`
delegates to the root node. -/
theorem claim_C7 {α : Type} (fm : α → List Char) (T : GoTree α) (t : PT α) :
    PT.goString fm t
      = some ('[' :: (List.intercalate [' '] ((PT.inorder t).map fm) ++ [']'])) ∧
    GoTree.goString fm T = PT.goString fm T.root ∧
    PT.goString fm (PT.leaf : PT α) = some ['[', ']'] ∧
    (T.root = PT.leaf → GoTree.goString fm T = some ['[', ']']) := by
  refine ⟨PT.goString_eq fm t, rfl, rfl, ?_⟩
  intro h
  show PT.goString fm T.root = _
  rw [h]
  rfl

/-- Witness for C7 on the first fixture with integer rendering. -/
theorem claim_C7_witness :
    PT.goString fmtInt exT1.root
      = some ('[' :: (List.intercalate [' ']
          ((PT.inorder exT1.root).map fmtInt) ++ [']'])) ∧
    GoTree.goString fmtInt (GoTree.New : GoTree Int)
      = PT.goString fmtInt (GoTree.New : GoTree Int).root ∧
    PT.goString fmtInt (PT.leaf : PT Int) = some ['[', ']'] ∧
    ((GoTree.New : GoTree Int).root = PT.leaf →
      GoTree.goString fmtInt (GoTree.New : GoTree Int) = some ['[', ']']) :=
  claim_C7 fmtInt (GoTree.New : GoTree Int) exT1.root

/-- C10: `Node.String` is total — the final buffer truncation never
underflows: a nil receiver skips truncation and yields the empty bracket,
and a non-nil receiver has written at least one value plus its separating
space, so the truncated length is non-negative and within bounds. -/
theorem claim_C10 {α : Type} (fm : α → List Char) (t : PT α) :
    (PT.goString fm t).isSome = true ∧
    (t ≠ PT.leaf → 1 ≤ (PT.walkChars fm t).length ∧
      0 ≤ ((['['] ++ PT.walkChars fm t).length : Int) - 1) := by
  constructor
  · rw [PT.goString_eq]
    rfl
  · intro h
    cases t with
    | leaf => exact absurd rfl h
    | node i v p l r =>
      have hw : PT.walkChars fm (PT.node i v p l r)
          = (((PT.inorder (PT.node i v p l r)).map fm).map
              (fun s => s ++ [' '])).flatten :=
        PT.walkChars_eq fm _
      rw [hw, flatten_seps [' '] _ (by
        intro hcon
        exact PT.inorder_ne_nil (List.map_eq_nil_iff.mp hcon))]
      constructor
      · simp
      · simp
        positivity

/-- Witness for C10 at a one-node tree over `Int`. -/
theorem claim_C10_witness :
    (PT.goString fmtInt (PT.node 0 (5 : Int) none PT.leaf PT.leaf)).isSome = true ∧
    (PT.node 0 (5 : Int) none PT.leaf PT.leaf ≠ PT.leaf →
      1 ≤ (PT.walkChars fmtInt (PT.node 0 (5 : Int) none PT.leaf PT.leaf)).length ∧
      0 ≤ ((['['] ++ PT.walkChars fmtInt
        (PT.node 0 (5 : Int) none PT.leaf PT.leaf)).length : Int) - 1) :=
  claim_C10 fmtInt (PT.node 0 (5 : Int) none PT.leaf PT.leaf)

/-! Lemmas for the randomized initialization (C6). -/

theorem take_set_of_le {β : Type} :
    ∀ (l : List β) (i : Nat) (a : β) (n : Nat), n ≤ i →
    (l.set i a).take n = l.take n := by
  intro l
  induction l with
  | nil => intro i a n _; simp
  | cons x t ih =>
    intro i a n hni
    cases i with
    | zero =>
      have hn : n = 0 := Nat.le_zero.mp hni
      subst hn
      simp
    | succ i2 =>
      cases n with
      | zero => simp
      | succ n2 =>
        show (x :: t.set i2 a).take (n2 + 1) = (x :: t).take (n2 + 1)
        simp only [List.take_succ_cons]
        rw [ih i2 a n2 (by omega)]

theorem take_set_of_lt {β : Type} :
    ∀ (l : List β) (i : Nat) (a : β) (n : Nat), i < n →
    (l.set i a).take n = (l.take n).set i a := by
  intro l
  induction l with
  | nil => intro i a n _; simp
  | cons x t ih =>
    intro i a n hin
    cases i with
    | zero =>
      cases n with
      | zero => omega
      | succ n2 => simp
    | succ i2 =>
      cases n with
      | zero => omega
      | succ n2 =>
        show (x :: t.set i2 a).take (n2 + 1) = ((x :: t).take (n2 + 1)).set (i2 + 1) a
        simp only [List.take_succ_cons, List.set_cons_succ]
        rw [ih i2 a n2 (by omega)]

theorem perm_get_set {β : Type} :
    ∀ (l : List β) (r : Nat) (z : β) (h : r < l.length),
    (l.get ⟨r, h⟩ :: l.set r z).Perm (z :: l) := by
  intro l
  induction l with
  | nil => intro r z h; simp at h
  | cons a t ih =>
    intro r z h
    cases r with
    | zero =>
      show (a :: z :: t).Perm (z :: a :: t)
      exact List.Perm.swap z a t
    | succ r2 =>
      show (t.get ⟨r2, _⟩ :: a :: t.set r2 z).Perm (z :: a :: t)
      have h2 : r2 < t.length := by
        simp only [List.length_cons] at h
        omega
      exact (List.Perm.swap a _ _).trans
        (((ih r2 z h2).cons a).trans (List.Perm.swap z a t))

theorem filterMap_range_getElem {β : Type} :
    ∀ (vs : List β), (List.range vs.length).filterMap (fun j => vs[j]?) = vs := by
  intro vs
  induction vs with
  | nil => rfl
  | cons v vs ih =>
    show (List.range (vs.length + 1)).filterMap (fun j => (v :: vs)[j]?) = v :: vs
    rw [List.range_succ_eq_map]
    rw [List.filterMap_cons]
    have h0 : (v :: vs)[(0 : Nat)]? = some v := by simp
    rw [h0]
    rw [List.filterMap_map]
    have hcomp : ((fun j => (v :: vs)[j]?) ∘ Nat.succ) = fun j => vs[j]? := by
      funext j
      simp
    rw [hcomp, ih]

theorem randLoop_perm {α : Type} {less : α → α → Bool} {rs : Nat → Nat}
    {vs : List α} (hrs : ∀ m, rs m ≤ m) :
    ∀ (k : Nat) (idx : List Nat) (T : GoTree α),
    k ≤ idx.length →
    (∀ j ∈ idx, j < vs.length) →
    ∃ js : List Nat, js.Perm (idx.take k) ∧
      GoTree.randLoop less rs vs T idx k
        = some (GoTree.Init less T (js.filterMap (fun j => vs[j]?))) := by
  intro k
  induction k with
  | zero =>
    intro idx T _ _
    exact ⟨[], by simp, rfl⟩
  | succ k ih =>
    intro idx T hk hmem
    have hkl : k < idx.length := by omega
    have hrk : rs k < idx.length := by
      have := hrs k
      omega
    have h1 : idx[rs k]? = some (idx[rs k]) := List.getElem?_eq_getElem hrk
    have hjlt : idx[rs k] < vs.length := hmem _ (List.getElem_mem hrk)
    have h2 : vs[idx[rs k]]? = some (vs[idx[rs k]]) := List.getElem?_eq_getElem hjlt
    have h3 : idx[k]? = some (idx[k]) := List.getElem?_eq_getElem hkl
    have hred : GoTree.randLoop less rs vs T idx (k + 1)
        = GoTree.randLoop less rs vs (GoTree.Insert less T (vs[idx[rs k]])).1
            ((idx.set (rs k) (idx[k])).set k (idx[rs k])) k := by
      show (idx[rs k]?).bind _ = _
      rw [h1, Option.some_bind, h2, Option.some_bind, h3, Option.some_bind]
    have hlen2 : k ≤ ((idx.set (rs k) (idx[k])).set k (idx[rs k])).length := by
      simp only [List.length_set]
      omega
    have hmem2 : ∀ j ∈ (idx.set (rs k) (idx[k])).set k (idx[rs k]), j < vs.length := by
      intro j hj
      rcases List.mem_or_eq_of_mem_set hj with hj | hj
      · rcases List.mem_or_eq_of_mem_set hj with hj | hj
        · exact hmem j hj
        · subst hj
          exact hmem _ (List.getElem_mem hkl)
      · subst hj
        exact hjlt
    obtain ⟨js, hperm, heq⟩ :=
      ih ((idx.set (rs k) (idx[k])).set k (idx[rs k]))
        (GoTree.Insert less T (vs[idx[rs k]])).1 hlen2 hmem2
    have htk : ((idx.set (rs k) (idx[k])).set k (idx[rs k])).take k
        = (idx.set (rs k) (idx[k])).take k :=
      take_set_of_le _ k (idx[rs k]) k (le_refl k)
    have htake1 : idx.take (k + 1) = idx.take k ++ [idx[k]] := by
      rw [List.take_succ, h3]
      rfl
    refine ⟨idx[rs k] :: js, ?_, ?_⟩
    · rw [htake1]
      by_cases hcase : rs k < k
      · have htk2 : (idx.set (rs k) (idx[k])).take k
            = (idx.take k).set (rs k) (idx[k]) :=
          take_set_of_lt _ _ _ _ hcase
        rw [htk, htk2] at hperm
        have hlt : rs k < (idx.take k).length := by
          simp only [List.length_take]
          omega
        have hget : (idx.take k).get ⟨rs k, hlt⟩ = idx[rs k] := by
          rw [List.get_eq_getElem, List.getElem_take]
        have hps := perm_get_set (idx.take k) (rs k) (idx[k]) hlt
        rw [hget] at hps
        exact (hperm.cons _).trans
          (hps.trans (List.perm_append_singleton _ _).symm)
      · have hrkk : rs k = k := by
          have := hrs k
          omega
        have hidx : idx[rs k] = idx[k] := by simp only [hrkk]
        have hset : idx.set (rs k) (idx[k]) = idx.set k (idx[k]) := by rw [hrkk]
        rw [htk, hset, take_set_of_le _ k (idx[k]) k (le_refl k)] at hperm
        rw [hidx]
        exact (hperm.cons _).trans (List.perm_append_singleton _ _).symm
    · rw [hred, heq]
      have hfm : (idx[rs k] :: js).filterMap (fun j => vs[j]?)
          = vs[idx[rs k]] :: js.filterMap (fun j => vs[j]?) := by
        rw [List.filterMap_cons, h2]
      rw [hfm]
      rfl

theorem mem_insert_iff {less : α → α → Bool}
    (hcn : ∀ a b, less a b = false → less b a = false → a = b)
    {T : GoTree α} {v : α} (x : α) :
    x ∈ PT.inorder (GoTree.Insert less T v).1.root
      ↔ x = v ∨ x ∈ PT.inorder T.root := by
  cases hf : PT.Find less T.root v with
  | some n =>
    rw [GoTree.insert_found_eq hf]
    show x ∈ PT.inorder T.root ↔ _
    constructor
    · exact Or.inr
    · rintro (rfl | h)
      · exact PT.find_mem hcn hf
      · exact h
  | none =>
    obtain ⟨xs, ys, as, bs, h1, h2, h3, h4⟩ := PT.insFix_splice (f := T.fresh) hf
    have hroot : (GoTree.Insert less T v).1.root
        = (PT.insFix less v T.fresh none T.root).1 := by
      rw [GoTree.insert_new_eq hf, PT.insFix_new hf]
    rw [hroot, h2, h1]
    simp only [List.mem_append, List.mem_cons]
    tauto

theorem mem_init_iff {less : α → α → Bool}
    (hcn : ∀ a b, less a b = false → less b a = false → a = b) :
    ∀ (vs : List α) (T : GoTree α) (x : α),
    x ∈ PT.inorder (GoTree.Init less T vs).root
      ↔ x ∈ vs ∨ x ∈ PT.inorder T.root := by
  intro vs
  induction vs with
  | nil =>
    intro T x
    show x ∈ PT.inorder T.root ↔ _
    simp
  | cons v vs ih =>
    intro T x
    show x ∈ PT.inorder (GoTree.Init less (GoTree.Insert less T v).1 vs).root ↔ _
    rw [ih, mem_insert_iff hcn]
    simp only [List.mem_cons]
    tauto

theorem sorted_eq_of_mem_iff {less : α → α → Bool}
    (has : ∀ a b, less a b = true → less b a = false) :
    ∀ (l1 l2 : List α),
    List.Pairwise (fun a b => less a b = true) l1 →
    List.Pairwise (fun a b => less a b = true) l2 →
    (∀ x, x ∈ l1 ↔ x ∈ l2) → l1 = l2 := by
  intro l1
  induction l1 with
  | nil =>
    intro l2 _ _ hmem
    cases l2 with
    | nil => rfl
    | cons b t2 => exact absurd ((hmem b).mpr (List.mem_cons_self _ _)) (by simp)
  | cons a t1 ih =>
    intro l2 hp1 hp2 hmem
    cases l2 with
    | nil => exact absurd ((hmem a).mp (List.mem_cons_self _ _)) (by simp)
    | cons b t2 =>
      have hab : a = b := by
        rcases List.mem_cons.mp ((hmem a).mp (List.mem_cons_self _ _)) with h | h
        · exact h
        · rcases List.mem_cons.mp ((hmem b).mpr (List.mem_cons_self _ _)) with h2 | h2
          · exact h2.symm
          · have hba : less b a = true := (List.pairwise_cons.mp hp2).1 a h
            have hab2 : less a b = true := (List.pairwise_cons.mp hp1).1 b h2
            rw [has a b hab2] at hba
            exact absurd hba Bool.false_ne_true
      subst hab
      have htails : ∀ x, x ∈ t1 ↔ x ∈ t2 := by
        intro x
        constructor
        · intro hx
          have hax : less a x = true := (List.pairwise_cons.mp hp1).1 x hx
          have hxa : x ≠ a := by
            intro hcon
            subst hcon
            rw [less_irrefl has x] at hax
            exact absurd hax Bool.false_ne_true
          rcases List.mem_cons.mp ((hmem x).mp (List.mem_cons_of_mem _ hx)) with h | h
          · exact absurd h hxa
          · exact h
        · intro hx
          have hax : less a x = true := (List.pairwise_cons.mp hp2).1 x hx
          have hxa : x ≠ a := by
            intro hcon
            subst hcon
            rw [less_irrefl has x] at hax
            exact absurd hax Bool.false_ne_true
          rcases List.mem_cons.mp ((hmem x).mpr (List.mem_cons_of_mem _ hx)) with h | h
          · exact absurd h hxa
          · exact h
      rw [ih t2 (List.pairwise_cons.mp hp1).2 (List.pairwise_cons.mp hp2).2 htails]

/-- C6: for any randomness draws `rs i ≤ i`, `RandInit` succeeds and
inserts exactly the elements of `vs`, once each, in some permutation of
`vs`; the resulting tree therefore has the same in-order sequence (the
ascending distinct values) and the same size as the tree `Init` builds
from `vs` with the same comparator. -/
theorem claim_C6 {α : Type} {less : α → α → Bool} (hL : LessOK less)
    (vs : List α) (rs : Nat → Nat) (hrs : ∀ m, rs m ≤ m) :
    ∃ ws : List α, ws.Perm vs ∧
      GoTree.RandInit less GoTree.New vs rs
        = some (GoTree.Init less GoTree.New ws) ∧
      PT.inorder (GoTree.Init less GoTree.New ws).root
        = PT.inorder (GoTree.Init less GoTree.New vs).root ∧
      (GoTree.Init less GoTree.New ws).size
        = (GoTree.Init less GoTree.New vs).size := by
  obtain ⟨js, hperm, heq⟩ := randLoop_perm hrs vs.length (List.range vs.length)
    GoTree.New (by simp) (fun j hj => List.mem_range.mp hj)
  rw [List.take_of_length_le (by simp)] at hperm
  have hwsperm : (js.filterMap (fun j => vs[j]?)).Perm vs := by
    have hh := hperm.filterMap (fun j => vs[j]?)
    rw [filterMap_range_getElem vs] at hh
    exact hh
  have hIw := GoTree.init_TreeInv (js.filterMap (fun j => vs[j]?))
    (treeInv_New : TreeInv less GoTree.New)
  have hIv := GoTree.init_TreeInv vs (treeInv_New : TreeInv less GoTree.New)
  have hpw : List.Pairwise (fun a b => less a b = true)
      (PT.inorder (GoTree.Init less GoTree.New (js.filterMap (fun j => vs[j]?))).root) :=
    PT.pairwise_inorder hL.lt_trans hIw.1
  have hpv : List.Pairwise (fun a b => less a b = true)
      (PT.inorder (GoTree.Init less GoTree.New vs).root) :=
    PT.pairwise_inorder hL.lt_trans hIv.1
  have hmemiff : ∀ x,
      x ∈ PT.inorder (GoTree.Init less GoTree.New (js.filterMap (fun j => vs[j]?))).root
        ↔ x ∈ PT.inorder (GoTree.Init less GoTree.New vs).root := by
    intro x
    rw [mem_init_iff hL.conn, mem_init_iff hL.conn]
    have hmm := hwsperm.mem_iff (a := x)
    tauto
  have heqio := sorted_eq_of_mem_iff hL.asymm _ _ hpw hpv hmemiff
  refine ⟨js.filterMap (fun j => vs[j]?), hwsperm, heq, heqio, ?_⟩
  rw [hIw.2.2.2.2, hIv.2.2.2.2, heqio]

/-- Witness for C6 on the first fixture input with the constant-zero
randomness source. -/
theorem claim_C6_witness :
    ∃ ws : List Int, ws.Perm [5, 2, 7, 3, 1, 6, 9, 4, 8, 2, 1, 8] ∧
      GoTree.RandInit ltInt GoTree.New [5, 2, 7, 3, 1, 6, 9, 4, 8, 2, 1, 8]
          (fun _ => 0)
        = some (GoTree.Init ltInt GoTree.New ws) ∧
      PT.inorder (GoTree.Init ltInt GoTree.New ws).root
        = PT.inorder (GoTree.Init ltInt GoTree.New
            [5, 2, 7, 3, 1, 6, 9, 4, 8, 2, 1, 8]).root ∧
      (GoTree.Init ltInt GoTree.New ws).size
        = (GoTree.Init ltInt GoTree.New [5, 2, 7, 3, 1, 6, 9, 4, 8, 2, 1, 8]).size :=
  claim_C6 lessOK_ltInt [5, 2, 7, 3, 1, 6, 9, 4, 8, 2, 1, 8] (fun _ => 0)
    (fun m => Nat.zero_le m)

/-! Lemmas for successor/predecessor traversal (C5). -/

theorem PT.subAt_cons_L {i : Nat} {v : α} {q : Option Nat} {l r : PT α}
    {p : List Dir} : PT.subAt (PT.node i v q l r) (Dir.L :: p) = PT.subAt l p := rfl

theorem PT.subAt_cons_R {i : Nat} {v : α} {q : Option Nat} {l r : PT α}
    {p : List Dir} : PT.subAt (PT.node i v q l r) (Dir.R :: p) = PT.subAt r p := rfl

theorem PT.climbR_some : ∀ {xs ds : List Dir}, PT.climbR xs = some ds →
    ∀ ys, PT.climbR (xs ++ ys) = some (ds ++ ys) := by
  intro xs
  induction xs with
  | nil => intro ds h ys; simp [PT.climbR] at h
  | cons d xs ih =>
    intro ds h ys
    cases d with
    | L =>
      rw [show PT.climbR (Dir.L :: xs) = some xs from rfl, Option.some_inj] at h
      subst h
      rfl
    | R =>
      rw [show PT.climbR (Dir.R :: xs) = PT.climbR xs from rfl] at h
      show PT.climbR (xs ++ ys) = _
      exact ih h ys

theorem PT.climbR_none : ∀ {xs : List Dir}, PT.climbR xs = none →
    ∀ ys, PT.climbR (xs ++ ys) = PT.climbR ys := by
  intro xs
  induction xs with
  | nil => intro _ ys; rfl
  | cons d xs ih =>
    intro h ys
    cases d with
    | L => simp [PT.climbR] at h
    | R =>
      rw [show PT.climbR (Dir.R :: xs) = PT.climbR xs from rfl] at h
      show PT.climbR (xs ++ ys) = _
      exact ih h ys

theorem PT.climbL_some : ∀ {xs ds : List Dir}, PT.climbL xs = some ds →
    ∀ ys, PT.climbL (xs ++ ys) = some (ds ++ ys) := by
  intro xs
  induction xs with
  | nil => intro ds h ys; simp [PT.climbL] at h
  | cons d xs ih =>
    intro ds h ys
    cases d with
    | R =>
      rw [show PT.climbL (Dir.R :: xs) = some xs from rfl, Option.some_inj] at h
      subst h
      rfl
    | L =>
      rw [show PT.climbL (Dir.L :: xs) = PT.climbL xs from rfl] at h
      show PT.climbL (xs ++ ys) = _
      exact ih h ys

theorem PT.climbL_none : ∀ {xs : List Dir}, PT.climbL xs = none →
    ∀ ys, PT.climbL (xs ++ ys) = PT.climbL ys := by
  intro xs
  induction xs with
  | nil => intro _ ys; rfl
  | cons d xs ih =>
    intro h ys
    cases d with
    | R => simp [PT.climbL] at h
    | L =>
      rw [show PT.climbL (Dir.L :: xs) = PT.climbL xs from rfl] at h
      show PT.climbL (xs ++ ys) = _
      exact ih h ys

theorem PT.nextPath_right_node {t : PT α} {p : List Dir} {i : Nat} {v : α}
    {q : Option Nat} {l : PT α} {a : Nat} {b : α} {c : Option Nat} {d e : PT α}
    (hsub : PT.subAt t p = some (PT.node i v q l (PT.node a b c d e))) :
    PT.nextPath t p = some (p ++ Dir.R :: PT.leftSpine (PT.node a b c d e)) := by
  unfold PT.nextPath
  split
  · rename_i heq
    rw [hsub] at heq
    exact absurd heq (by simp)
  · rename_i heq
    rw [hsub] at heq
    exact absurd heq (by simp)
  · rename_i i2 v2 q2 l2 heq
    rw [hsub] at heq
    simp only [Option.some_inj, PT.node.injEq] at heq
    exact absurd heq.2.2.2.2 (by simp)
  · rename_i i2 v2 q2 l2 a2 b2 c2 d2 e2 heq
    rw [hsub] at heq
    simp only [Option.some_inj, PT.node.injEq] at heq
    obtain ⟨_, _, _, _, h5, h6, h7, h8, h9⟩ := heq
    subst h5 h6 h7 h8 h9
    rfl

theorem PT.nextPath_right_leaf {t : PT α} {p : List Dir} {i : Nat} {v : α}
    {q : Option Nat} {l : PT α}
    (hsub : PT.subAt t p = some (PT.node i v q l PT.leaf)) :
    PT.nextPath t p = (PT.climbR p.reverse).map List.reverse := by
  unfold PT.nextPath
  split
  · rename_i heq
    rw [hsub] at heq
    exact absurd heq (by simp)
  · rename_i heq
    rw [hsub] at heq
    exact absurd heq (by simp)
  · rfl
  · rename_i i2 v2 q2 l2 a2 b2 c2 d2 e2 heq
    rw [hsub] at heq
    simp only [Option.some_inj, PT.node.injEq] at heq
    exact absurd heq.2.2.2.2 (by simp)

theorem PT.prevPath_left_node {t : PT α} {p : List Dir} {i : Nat} {v : α}
    {q : Option Nat} {r : PT α} {a : Nat} {b : α} {c : Option Nat} {d e : PT α}
    (hsub : PT.subAt t p = some (PT.node i v q (PT.node a b c d e) r)) :
    PT.prevPath t p = some (p ++ Dir.L :: PT.rightSpine (PT.node a b c d e)) := by
  unfold PT.prevPath
  split
  · rename_i heq
    rw [hsub] at heq
    exact absurd heq (by simp)
  · rename_i heq
    rw [hsub] at heq
    exact absurd heq (by simp)
  · rename_i i2 v2 q2 r2 heq
    rw [hsub] at heq
    simp only [Option.some_inj, PT.node.injEq] at heq
    exact absurd heq.2.2.2.1 (by simp)
  · rename_i i2 v2 q2 a2 b2 c2 d2 e2 r2 heq
    rw [hsub] at heq
    simp only [Option.some_inj, PT.node.injEq] at heq
    obtain ⟨_, _, _, ⟨h5, h6, h7, h8, h9⟩, _⟩ := heq
    subst h5 h6 h7 h8 h9
    rfl

theorem PT.prevPath_left_leaf {t : PT α} {p : List Dir} {i : Nat} {v : α}
    {q : Option Nat} {r : PT α}
    (hsub : PT.subAt t p = some (PT.node i v q PT.leaf r)) :
    PT.prevPath t p = (PT.climbL p.reverse).map List.reverse := by
  unfold PT.prevPath
  split
  · rename_i heq
    rw [hsub] at heq
    exact absurd heq (by simp)
  · rename_i heq
    rw [hsub] at heq
    exact absurd heq (by simp)
  · rfl
  · rename_i i2 v2 q2 a2 b2 c2 d2 e2 r2 heq
    rw [hsub] at heq
    simp only [Option.some_inj, PT.node.injEq] at heq
    exact absurd heq.2.2.2.1 (by simp)

theorem PT.mem_inPaths_subAt : ∀ {t : PT α} {p : List Dir}, p ∈ PT.inPaths t →
    ∃ i v q l r, PT.subAt t p = some (PT.node i v q l r) := by
  intro t
  induction t with
  | leaf => intro p hp; simp [PT.inPaths] at hp
  | node i v q l r ihl ihr =>
    intro p hp
    rw [show PT.inPaths (PT.node i v q l r)
      = (PT.inPaths l).map (fun p => Dir.L :: p) ++ [[]] ++
        (PT.inPaths r).map (fun p => Dir.R :: p) from rfl] at hp
    rcases List.mem_append.mp hp with hp | hp
    · rcases List.mem_append.mp hp with hp | hp
      · obtain ⟨p2, hp2, hpe⟩ := List.mem_map.mp hp
        subst hpe
        rw [PT.subAt_cons_L]
        exact ihl hp2
      · rcases List.mem_cons.mp hp with hp | hp
        · subst hp
          exact ⟨i, v, q, l, r, rfl⟩
        · simp at hp
    · obtain ⟨p2, hp2, hpe⟩ := List.mem_map.mp hp
      subst hpe
      rw [PT.subAt_cons_R]
      exact ihr hp2

theorem PT.inPaths_ne_nil {i : Nat} {v : α} {q : Option Nat} {l r : PT α} :
    PT.inPaths (PT.node i v q l r) ≠ [] := by
  rw [show PT.inPaths (PT.node i v q l r)
    = (PT.inPaths l).map (fun p => Dir.L :: p) ++ [[]] ++
      (PT.inPaths r).map (fun p => Dir.R :: p) from rfl]
  simp

theorem PT.head_inPaths : ∀ {t : PT α}, t ≠ PT.leaf →
    (PT.inPaths t).head? = some (PT.leftSpine t) := by
  intro t
  induction t with
  | leaf => intro h; exact absurd rfl h
  | node i v q l r ihl ihr =>
    intro _
    rw [show PT.inPaths (PT.node i v q l r)
      = (PT.inPaths l).map (fun p => Dir.L :: p) ++ [[]] ++
        (PT.inPaths r).map (fun p => Dir.R :: p) from rfl]
    cases l with
    | leaf =>
      show (([] : List (List Dir)) ++ [[]] ++ _).head? = some []
      rfl
    | node a b c d e =>
      have hne : PT.inPaths (PT.node a b c d e) ≠ [] := PT.inPaths_ne_nil
      rw [List.append_assoc, List.head?_append_of_ne_nil _ (by simp [hne])]
      rw [List.head?_map, ihl (by simp)]
      rfl

theorem PT.getLast_inPaths : ∀ {t : PT α}, t ≠ PT.leaf →
    (PT.inPaths t).getLast? = some (PT.rightSpine t) := by
  intro t
  induction t with
  | leaf => intro h; exact absurd rfl h
  | node i v q l r ihl ihr =>
    intro _
    rw [show PT.inPaths (PT.node i v q l r)
      = (PT.inPaths l).map (fun p => Dir.L :: p) ++ [[]] ++
        (PT.inPaths r).map (fun p => Dir.R :: p) from rfl]
    cases r with
    | leaf =>
      show (_ ++ [[]] ++ ([] : List (List Dir))).getLast? = some []
      simp
    | node a b c d e =>
      have hne : PT.inPaths (PT.node a b c d e) ≠ [] := PT.inPaths_ne_nil
      rw [List.getLast?_append_of_ne_nil _ (by simp [hne])]
      rw [List.getLast?_map, ihr (by simp)]
      rfl

theorem PT.chainTo_single {t : PT α} {step : PT α → List Dir → Option (List Dir)}
    {p : List Dir} {tgt : Option (List Dir)} :
    chainTo t step [p] tgt ↔ step t p = tgt := Iff.rfl

theorem PT.chainTo_cons_cons {t : PT α}
    {step : PT α → List Dir → Option (List Dir)}
    {p pq : List Dir} {rest : List (List Dir)} {tgt : Option (List Dir)} :
    chainTo t step (p :: pq :: rest) tgt
      ↔ step t p = some pq ∧ chainTo t step (pq :: rest) tgt := Iff.rfl

theorem PT.chainTo_append {t : PT α}
    {step : PT α → List Dir → Option (List Dir)} :
    ∀ {A : List (List Dir)} {q0 : List Dir} {B : List (List Dir)}
    {tgt : Option (List Dir)},
    chainTo t step A (some q0) → chainTo t step (q0 :: B) tgt →
    chainTo t step (A ++ q0 :: B) tgt := by
  intro A
  induction A with
  | nil => intro q0 B tgt _ h2; exact h2
  | cons p A ih =>
    intro q0 B tgt h1 h2
    cases A with
    | nil =>
      rw [PT.chainTo_single] at h1
      show chainTo t step (p :: q0 :: B) tgt
      rw [PT.chainTo_cons_cons]
      exact ⟨h1, h2⟩
    | cons p2 A2 =>
      rw [PT.chainTo_cons_cons] at h1
      obtain ⟨hs, hrest⟩ := h1
      show chainTo t step (p :: ((p2 :: A2) ++ q0 :: B)) tgt
      have hcons : (p2 :: A2) ++ q0 :: B = p2 :: (A2 ++ q0 :: B) := rfl
      rw [hcons, PT.chainTo_cons_cons]
      exact ⟨hs, by
        have := ih hrest h2
        rw [hcons] at this
        exact this⟩

theorem PT.next_lift_L {i : Nat} {v : α} {q : Option Nat} {l r : PT α}
    {p pq : List Dir}
    (hsub : ∃ a b c d e, PT.subAt l p = some (PT.node a b c d e))
    (hn : PT.nextPath l p = some pq) :
    PT.nextPath (PT.node i v q l r) (Dir.L :: p) = some (Dir.L :: pq) := by
  obtain ⟨a, b, c, d, e, hs⟩ := hsub
  cases e with
  | node a2 b2 c2 d2 e2 =>
    rw [PT.nextPath_right_node hs, Option.some_inj] at hn
    have hst : PT.subAt (PT.node i v q l r) (Dir.L :: p)
        = some (PT.node a b c d (PT.node a2 b2 c2 d2 e2)) := by
      rw [PT.subAt_cons_L]
      exact hs
    rw [PT.nextPath_right_node hst, ← hn]
    rfl
  | leaf =>
    rw [PT.nextPath_right_leaf hs] at hn
    obtain ⟨ds, hds, hpq⟩ := Option.map_eq_some'.mp hn
    have hst : PT.subAt (PT.node i v q l r) (Dir.L :: p)
        = some (PT.node a b c d PT.leaf) := by
      rw [PT.subAt_cons_L]
      exact hs
    rw [PT.nextPath_right_leaf hst]
    rw [List.reverse_cons, PT.climbR_some hds [Dir.L]]
    rw [Option.map_some']
    rw [← hpq]
    simp

theorem PT.next_last_L {i : Nat} {v : α} {q : Option Nat} {l r : PT α}
    {p : List Dir}
    (hsub : ∃ a b c d e, PT.subAt l p = some (PT.node a b c d e))
    (hn : PT.nextPath l p = none) :
    PT.nextPath (PT.node i v q l r) (Dir.L :: p) = some [] := by
  obtain ⟨a, b, c, d, e, hs⟩ := hsub
  cases e with
  | node a2 b2 c2 d2 e2 =>
    rw [PT.nextPath_right_node hs] at hn
    exact absurd hn (by simp)
  | leaf =>
    rw [PT.nextPath_right_leaf hs] at hn
    have hcl : PT.climbR p.reverse = none := by
      cases hc : PT.climbR p.reverse with
      | none => rfl
      | some ds => rw [hc] at hn; exact absurd hn (by simp)
    have hst : PT.subAt (PT.node i v q l r) (Dir.L :: p)
        = some (PT.node a b c d PT.leaf) := by
      rw [PT.subAt_cons_L]
      exact hs
    rw [PT.nextPath_right_leaf hst]
    rw [List.reverse_cons, PT.climbR_none hcl [Dir.L]]
    rfl

theorem PT.next_lift_R {i : Nat} {v : α} {q : Option Nat} {l r : PT α}
    {p pq : List Dir}
    (hsub : ∃ a b c d e, PT.subAt r p = some (PT.node a b c d e))
    (hn : PT.nextPath r p = some pq) :
    PT.nextPath (PT.node i v q l r) (Dir.R :: p) = some (Dir.R :: pq) := by
  obtain ⟨a, b, c, d, e, hs⟩ := hsub
  cases e with
  | node a2 b2 c2 d2 e2 =>
    rw [PT.nextPath_right_node hs, Option.some_inj] at hn
    have hst : PT.subAt (PT.node i v q l r) (Dir.R :: p)
        = some (PT.node a b c d (PT.node a2 b2 c2 d2 e2)) := by
      rw [PT.subAt_cons_R]
      exact hs
    rw [PT.nextPath_right_node hst, ← hn]
    rfl
  | leaf =>
    rw [PT.nextPath_right_leaf hs] at hn
    obtain ⟨ds, hds, hpq⟩ := Option.map_eq_some'.mp hn
    have hst : PT.subAt (PT.node i v q l r) (Dir.R :: p)
        = some (PT.node a b c d PT.leaf) := by
      rw [PT.subAt_cons_R]
      exact hs
    rw [PT.nextPath_right_leaf hst]
    rw [List.reverse_cons, PT.climbR_some hds [Dir.R]]
    rw [Option.map_some']
    rw [← hpq]
    simp

theorem PT.next_last_R {i : Nat} {v : α} {q : Option Nat} {l r : PT α}
    {p : List Dir}
    (hsub : ∃ a b c d e, PT.subAt r p = some (PT.node a b c d e))
    (hn : PT.nextPath r p = none) :
    PT.nextPath (PT.node i v q l r) (Dir.R :: p) = none := by
  obtain ⟨a, b, c, d, e, hs⟩ := hsub
  cases e with
  | node a2 b2 c2 d2 e2 =>
    rw [PT.nextPath_right_node hs] at hn
    exact absurd hn (by simp)
  | leaf =>
    rw [PT.nextPath_right_leaf hs] at hn
    have hcl : PT.climbR p.reverse = none := by
      cases hc : PT.climbR p.reverse with
      | none => rfl
      | some ds => rw [hc] at hn; exact absurd hn (by simp)
    have hst : PT.subAt (PT.node i v q l r) (Dir.R :: p)
        = some (PT.node a b c d PT.leaf) := by
      rw [PT.subAt_cons_R]
      exact hs
    rw [PT.nextPath_right_leaf hst]
    rw [List.reverse_cons, PT.climbR_none hcl [Dir.R]]
    rfl

theorem PT.next_root_leaf {i : Nat} {v : α} {q : Option Nat} {l : PT α} :
    PT.nextPath (PT.node i v q l PT.leaf) [] = none := by
  rw [PT.nextPath_right_leaf (show PT.subAt (PT.node i v q l PT.leaf) []
    = some (PT.node i v q l PT.leaf) from rfl)]
  rfl

theorem PT.next_root_node {i : Nat} {v : α} {q : Option Nat} {l : PT α}
    {a : Nat} {b : α} {c : Option Nat} {d e : PT α} :
    PT.nextPath (PT.node i v q l (PT.node a b c d e)) []
      = some (Dir.R :: PT.leftSpine (PT.node a b c d e)) := by
  rw [PT.nextPath_right_node (show PT.subAt (PT.node i v q l (PT.node a b c d e)) []
    = some (PT.node i v q l (PT.node a b c d e)) from rfl)]
  rfl

theorem PT.chain_map_L {i : Nat} {v : α} {q : Option Nat} {l r : PT α} :
    ∀ (ps : List (List Dir)), chainTo l PT.nextPath ps none →
    (∀ p ∈ ps, ∃ a b c d e, PT.subAt l p = some (PT.node a b c d e)) →
    chainTo (PT.node i v q l r) PT.nextPath
      (ps.map (fun p => Dir.L :: p)) (some []) := by
  intro ps
  induction ps with
  | nil => intro _ _; trivial
  | cons p ps ih =>
    intro hch hval
    cases ps with
    | nil =>
      rw [PT.chainTo_single] at hch
      show chainTo _ _ [Dir.L :: p] (some [])
      rw [PT.chainTo_single]
      exact PT.next_last_L (hval p (List.mem_cons_self _ _)) hch
    | cons p2 ps2 =>
      rw [PT.chainTo_cons_cons] at hch
      obtain ⟨hs, hrest⟩ := hch
      show chainTo _ _ ((Dir.L :: p) :: (p2 :: ps2).map (fun p => Dir.L :: p)) (some [])
      rw [show (p2 :: ps2).map (fun p => Dir.L :: p)
        = (Dir.L :: p2) :: ps2.map (fun p => Dir.L :: p) from rfl]
      rw [PT.chainTo_cons_cons]
      refine ⟨PT.next_lift_L (hval p (List.mem_cons_self _ _)) hs, ?_⟩
      have hih := ih hrest (fun p3 hp3 => hval p3 (List.mem_cons_of_mem _ hp3))
      rw [show (p2 :: ps2).map (fun p => Dir.L :: p)
        = (Dir.L :: p2) :: ps2.map (fun p => Dir.L :: p) from rfl] at hih
      exact hih

theorem PT.chain_map_R {i : Nat} {v : α} {q : Option Nat} {l r : PT α} :
    ∀ (ps : List (List Dir)), chainTo r PT.nextPath ps none →
    (∀ p ∈ ps, ∃ a b c d e, PT.subAt r p = some (PT.node a b c d e)) →
    chainTo (PT.node i v q l r) PT.nextPath
      (ps.map (fun p => Dir.R :: p)) none := by
  intro ps
  induction ps with
  | nil => intro _ _; trivial
  | cons p ps ih =>
    intro hch hval
    cases ps with
    | nil =>
      rw [PT.chainTo_single] at hch
      show chainTo _ _ [Dir.R :: p] none
      rw [PT.chainTo_single]
      exact PT.next_last_R (hval p (List.mem_cons_self _ _)) hch
    | cons p2 ps2 =>
      rw [PT.chainTo_cons_cons] at hch
      obtain ⟨hs, hrest⟩ := hch
      show chainTo _ _ ((Dir.R :: p) :: (p2 :: ps2).map (fun p => Dir.R :: p)) none
      rw [show (p2 :: ps2).map (fun p => Dir.R :: p)
        = (Dir.R :: p2) :: ps2.map (fun p => Dir.R :: p) from rfl]
      rw [PT.chainTo_cons_cons]
      refine ⟨PT.next_lift_R (hval p (List.mem_cons_self _ _)) hs, ?_⟩
      have hih := ih hrest (fun p3 hp3 => hval p3 (List.mem_cons_of_mem _ hp3))
      rw [show (p2 :: ps2).map (fun p => Dir.R :: p)
        = (Dir.R :: p2) :: ps2.map (fun p => Dir.R :: p) from rfl] at hih
      exact hih

theorem PT.chain_next : ∀ t : PT α, chainTo t PT.nextPath (PT.inPaths t) none := by
  intro t
  induction t with
  | leaf => trivial
  | node i v q l r ihl ihr =>
    rw [show PT.inPaths (PT.node i v q l r)
      = (PT.inPaths l).map (fun p => Dir.L :: p) ++ [[]] ++
        (PT.inPaths r).map (fun p => Dir.R :: p) from rfl]
    rw [List.append_assoc]
    rw [show ([[]] : List (List Dir)) ++ (PT.inPaths r).map (fun p => Dir.R :: p)
      = [] :: (PT.inPaths r).map (fun p => Dir.R :: p) from rfl]
    have hA := PT.chain_map_L (i := i) (v := v) (q := q) (r := r) (PT.inPaths l) ihl
      (fun p hp => PT.mem_inPaths_subAt hp)
    have hB : chainTo (PT.node i v q l r) PT.nextPath
        ([] :: (PT.inPaths r).map (fun p => Dir.R :: p)) none := by
      cases r with
      | leaf =>
        show chainTo _ _ [[]] none
        rw [PT.chainTo_single]
        exact PT.next_root_leaf
      | node a b c d e =>
        have hmr := PT.chain_map_R (i := i) (v := v) (q := q) (l := l)
          (PT.inPaths (PT.node a b c d e)) ihr
          (fun p hp => PT.mem_inPaths_subAt hp)
        obtain ⟨rest, hre⟩ : ∃ rest, PT.inPaths (PT.node a b c d e)
            = PT.leftSpine (PT.node a b c d e) :: rest := by
          cases hip : PT.inPaths (PT.node a b c d e) with
          | nil => exact absurd hip PT.inPaths_ne_nil
          | cons x xs =>
            have hh := PT.head_inPaths (t := PT.node a b c d e) (by simp)
            rw [hip] at hh
            simp only [List.head?_cons, Option.some_inj] at hh
            exact ⟨xs, by rw [hh]⟩
        rw [hre] at hmr
        rw [hre]
        rw [show (PT.leftSpine (PT.node a b c d e) :: rest).map (fun p => Dir.R :: p)
          = (Dir.R :: PT.leftSpine (PT.node a b c d e))
            :: rest.map (fun p => Dir.R :: p) from rfl]
        rw [PT.chainTo_cons_cons]
        refine ⟨PT.next_root_node, ?_⟩
        rw [show (PT.leftSpine (PT.node a b c d e) :: rest).map (fun p => Dir.R :: p)
          = (Dir.R :: PT.leftSpine (PT.node a b c d e))
            :: rest.map (fun p => Dir.R :: p) from rfl] at hmr
        exact hmr
    exact PT.chainTo_append hA hB

theorem PT.prev_lift_R {i : Nat} {v : α} {q : Option Nat} {l r : PT α}
    {p pq : List Dir}
    (hsub : ∃ a b c d e, PT.subAt r p = some (PT.node a b c d e))
    (hn : PT.prevPath r p = some pq) :
    PT.prevPath (PT.node i v q l r) (Dir.R :: p) = some (Dir.R :: pq) := by
  obtain ⟨a, b, c, d, e, hs⟩ := hsub
  cases d with
  | node a2 b2 c2 d2 e2 =>
    rw [PT.prevPath_left_node hs, Option.some_inj] at hn
    have hst : PT.subAt (PT.node i v q l r) (Dir.R :: p)
        = some (PT.node a b c (PT.node a2 b2 c2 d2 e2) e) := by
      rw [PT.subAt_cons_R]
      exact hs
    rw [PT.prevPath_left_node hst, ← hn]
    rfl
  | leaf =>
    rw [PT.prevPath_left_leaf hs] at hn
    obtain ⟨ds, hds, hpq⟩ := Option.map_eq_some'.mp hn
    have hst : PT.subAt (PT.node i v q l r) (Dir.R :: p)
        = some (PT.node a b c PT.leaf e) := by
      rw [PT.subAt_cons_R]
      exact hs
    rw [PT.prevPath_left_leaf hst]
    rw [List.reverse_cons, PT.climbL_some hds [Dir.R]]
    rw [Option.map_some']
    rw [← hpq]
    simp

theorem PT.prev_last_R {i : Nat} {v : α} {q : Option Nat} {l r : PT α}
    {p : List Dir}
    (hsub : ∃ a b c d e, PT.subAt r p = some (PT.node a b c d e))
    (hn : PT.prevPath r p = none) :
    PT.prevPath (PT.node i v q l r) (Dir.R :: p) = some [] := by
  obtain ⟨a, b, c, d, e, hs⟩ := hsub
  cases d with
  | node a2 b2 c2 d2 e2 =>
    rw [PT.prevPath_left_node hs] at hn
    exact absurd hn (by simp)
  | leaf =>
    rw [PT.prevPath_left_leaf hs] at hn
    have hcl : PT.climbL p.reverse = none := by
      cases hc : PT.climbL p.reverse with
      | none => rfl
      | some ds => rw [hc] at hn; exact absurd hn (by simp)
    have hst : PT.subAt (PT.node i v q l r) (Dir.R :: p)
        = some (PT.node a b c PT.leaf e) := by
      rw [PT.subAt_cons_R]
      exact hs
    rw [PT.prevPath_left_leaf hst]
    rw [List.reverse_cons, PT.climbL_none hcl [Dir.R]]
    rfl

theorem PT.prev_lift_L {i : Nat} {v : α} {q : Option Nat} {l r : PT α}
    {p pq : List Dir}
    (hsub : ∃ a b c d e, PT.subAt l p = some (PT.node a b c d e))
    (hn : PT.prevPath l p = some pq) :
    PT.prevPath (PT.node i v q l r) (Dir.L :: p) = some (Dir.L :: pq) := by
  obtain ⟨a, b, c, d, e, hs⟩ := hsub
  cases d with
  | node a2 b2 c2 d2 e2 =>
    rw [PT.prevPath_left_node hs, Option.some_inj] at hn
    have hst : PT.subAt (PT.node i v q l r) (Dir.L :: p)
        = some (PT.node a b c (PT.node a2 b2 c2 d2 e2) e) := by
      rw [PT.subAt_cons_L]
      exact hs
    rw [PT.prevPath_left_node hst, ← hn]
    rfl
  | leaf =>
    rw [PT.prevPath_left_leaf hs] at hn
    obtain ⟨ds, hds, hpq⟩ := Option.map_eq_some'.mp hn
    have hst : PT.subAt (PT.node i v q l r) (Dir.L :: p)
        = some (PT.node a b c PT.leaf e) := by
      rw [PT.subAt_cons_L]
      exact hs
    rw [PT.prevPath_left_leaf hst]
    rw [List.reverse_cons, PT.climbL_some hds [Dir.L]]
    rw [Option.map_some']
    rw [← hpq]
    simp

theorem PT.prev_last_L {i : Nat} {v : α} {q : Option Nat} {l r : PT α}
    {p : List Dir}
    (hsub : ∃ a b c d e, PT.subAt l p = some (PT.node a b c d e))
    (hn : PT.prevPath l p = none) :
    PT.prevPath (PT.node i v q l r) (Dir.L :: p) = none := by
  obtain ⟨a, b, c, d, e, hs⟩ := hsub
  cases d with
  | node a2 b2 c2 d2 e2 =>
    rw [PT.prevPath_left_node hs] at hn
    exact absurd hn (by simp)
  | leaf =>
    rw [PT.prevPath_left_leaf hs] at hn
    have hcl : PT.climbL p.reverse = none := by
      cases hc : PT.climbL p.reverse with
      | none => rfl
      | some ds => rw [hc] at hn; exact absurd hn (by simp)
    have hst : PT.subAt (PT.node i v q l r) (Dir.L :: p)
        = some (PT.node a b c PT.leaf e) := by
      rw [PT.subAt_cons_L]
      exact hs
    rw [PT.prevPath_left_leaf hst]
    rw [List.reverse_cons, PT.climbL_none hcl [Dir.L]]
    rfl

theorem PT.prev_root_leaf {i : Nat} {v : α} {q : Option Nat} {r : PT α} :
    PT.prevPath (PT.node i v q PT.leaf r) [] = none := by
  rw [PT.prevPath_left_leaf (show PT.subAt (PT.node i v q PT.leaf r) []
    = some (PT.node i v q PT.leaf r) from rfl)]
  rfl

theorem PT.prev_root_node {i : Nat} {v : α} {q : Option Nat} {r : PT α}
    {a : Nat} {b : α} {c : Option Nat} {d e : PT α} :
    PT.prevPath (PT.node i v q (PT.node a b c d e) r) []
      = some (Dir.L :: PT.rightSpine (PT.node a b c d e)) := by
  rw [PT.prevPath_left_node (show PT.subAt (PT.node i v q (PT.node a b c d e) r) []
    = some (PT.node i v q (PT.node a b c d e) r) from rfl)]
  rfl

theorem PT.chain_prev_map_R {i : Nat} {v : α} {q : Option Nat} {l r : PT α} :
    ∀ (ps : List (List Dir)), chainTo r PT.prevPath ps none →
    (∀ p ∈ ps, ∃ a b c d e, PT.subAt r p = some (PT.node a b c d e)) →
    chainTo (PT.node i v q l r) PT.prevPath
      (ps.map (fun p => Dir.R :: p)) (some []) := by
  intro ps
  induction ps with
  | nil => intro _ _; trivial
  | cons p ps ih =>
    intro hch hval
    cases ps with
    | nil =>
      rw [PT.chainTo_single] at hch
      show chainTo _ _ [Dir.R :: p] (some [])
      rw [PT.chainTo_single]
      exact PT.prev_last_R (hval p (List.mem_cons_self _ _)) hch
    | cons p2 ps2 =>
      rw [PT.chainTo_cons_cons] at hch
      obtain ⟨hs, hrest⟩ := hch
      show chainTo _ _ ((Dir.R :: p) :: (p2 :: ps2).map (fun p => Dir.R :: p)) (some [])
      rw [show (p2 :: ps2).map (fun p => Dir.R :: p)
        = (Dir.R :: p2) :: ps2.map (fun p => Dir.R :: p) from rfl]
      rw [PT.chainTo_cons_cons]
      refine ⟨PT.prev_lift_R (hval p (List.mem_cons_self _ _)) hs, ?_⟩
      have hih := ih hrest (fun p3 hp3 => hval p3 (List.mem_cons_of_mem _ hp3))
      rw [show (p2 :: ps2).map (fun p => Dir.R :: p)
        = (Dir.R :: p2) :: ps2.map (fun p => Dir.R :: p) from rfl] at hih
      exact hih

theorem PT.chain_prev_map_L {i : Nat} {v : α} {q : Option Nat} {l r : PT α} :
    ∀ (ps : List (List Dir)), chainTo l PT.prevPath ps none →
    (∀ p ∈ ps, ∃ a b c d e, PT.subAt l p = some (PT.node a b c d e)) →
    chainTo (PT.node i v q l r) PT.prevPath
      (ps.map (fun p => Dir.L :: p)) none := by
  intro ps
  induction ps with
  | nil => intro _ _; trivial
  | cons p ps ih =>
    intro hch hval
    cases ps with
    | nil =>
      rw [PT.chainTo_single] at hch
      show chainTo _ _ [Dir.L :: p] none
      rw [PT.chainTo_single]
      exact PT.prev_last_L (hval p (List.mem_cons_self _ _)) hch
    | cons p2 ps2 =>
      rw [PT.chainTo_cons_cons] at hch
      obtain ⟨hs, hrest⟩ := hch
      show chainTo _ _ ((Dir.L :: p) :: (p2 :: ps2).map (fun p => Dir.L :: p)) none
      rw [show (p2 :: ps2).map (fun p => Dir.L :: p)
        = (Dir.L :: p2) :: ps2.map (fun p => Dir.L :: p) from rfl]
      rw [PT.chainTo_cons_cons]
      refine ⟨PT.prev_lift_L (hval p (List.mem_cons_self _ _)) hs, ?_⟩
      have hih := ih hrest (fun p3 hp3 => hval p3 (List.mem_cons_of_mem _ hp3))
      rw [show (p2 :: ps2).map (fun p => Dir.L :: p)
        = (Dir.L :: p2) :: ps2.map (fun p => Dir.L :: p) from rfl] at hih
      exact hih

theorem PT.chain_prev : ∀ t : PT α,
    chainTo t PT.prevPath ((PT.inPaths t).reverse) none := by
  intro t
  induction t with
  | leaf => trivial
  | node i v q l r ihl ihr =>
    have hrev : (PT.inPaths (PT.node i v q l r)).reverse
        = ((PT.inPaths r).reverse).map (fun p => Dir.R :: p) ++
          [] :: ((PT.inPaths l).reverse).map (fun p => Dir.L :: p) := by
      rw [show PT.inPaths (PT.node i v q l r)
        = (PT.inPaths l).map (fun p => Dir.L :: p) ++ [[]] ++
          (PT.inPaths r).map (fun p => Dir.R :: p) from rfl]
      simp [List.reverse_append, List.map_reverse]
    rw [hrev]
    have hA := PT.chain_prev_map_R (i := i) (v := v) (q := q) (l := l)
      ((PT.inPaths r).reverse) (ihr) (fun p hp =>
        PT.mem_inPaths_subAt (List.mem_reverse.mp hp))
    have hB : chainTo (PT.node i v q l r) PT.prevPath
        ([] :: ((PT.inPaths l).reverse).map (fun p => Dir.L :: p)) none := by
      cases l with
      | leaf =>
        show chainTo _ _ [[]] none
        rw [PT.chainTo_single]
        exact PT.prev_root_leaf
      | node a b c d e =>
        have hmr := PT.chain_prev_map_L (i := i) (v := v) (q := q) (r := r)
          ((PT.inPaths (PT.node a b c d e)).reverse) ihl
          (fun p hp => PT.mem_inPaths_subAt (List.mem_reverse.mp hp))
        obtain ⟨rest, hre⟩ : ∃ rest, (PT.inPaths (PT.node a b c d e)).reverse
            = PT.rightSpine (PT.node a b c d e) :: rest := by
          cases hip : (PT.inPaths (PT.node a b c d e)).reverse with
          | nil =>
            have : PT.inPaths (PT.node a b c d e) = [] := by
              have hh := congrArg List.reverse hip
              rwa [List.reverse_reverse] at hh
            exact absurd this PT.inPaths_ne_nil
          | cons x xs =>
            have hh : ((PT.inPaths (PT.node a b c d e)).reverse).head?
                = some (PT.rightSpine (PT.node a b c d e)) := by
              rw [List.head?_reverse]
              exact PT.getLast_inPaths (by simp)
            rw [hip] at hh
            simp only [List.head?_cons, Option.some_inj] at hh
            exact ⟨xs, by rw [hh]⟩
        rw [hre] at hmr
        rw [hre]
        rw [show (PT.rightSpine (PT.node a b c d e) :: rest).map (fun p => Dir.L :: p)
          = (Dir.L :: PT.rightSpine (PT.node a b c d e))
            :: rest.map (fun p => Dir.L :: p) from rfl]
        rw [PT.chainTo_cons_cons]
        refine ⟨PT.prev_root_node, ?_⟩
        rw [show (PT.rightSpine (PT.node a b c d e) :: rest).map (fun p => Dir.L :: p)
          = (Dir.L :: PT.rightSpine (PT.node a b c d e))
            :: rest.map (fun p => Dir.L :: p) from rfl] at hmr
        exact hmr
    exact PT.chainTo_append hA hB

theorem PT.iterVals_chain {t : PT α} {step : PT α → List Dir → Option (List Dir)} :
    ∀ (ps : List (List Dir)) (p : List Dir),
    chainTo t step (p :: ps) none →
    PT.iterVals t step (some p) (ps.length + 2)
      = (p :: ps).map (fun pq => (PT.subAt t pq).bind PT.rootVal) := by
  intro ps
  induction ps with
  | nil =>
    intro p hch
    rw [PT.chainTo_single] at hch
    show ((PT.subAt t p).bind PT.rootVal) :: PT.iterVals t step (step t p) 1 = _
    rw [hch]
    rfl
  | cons p2 ps2 ih =>
    intro p hch
    rw [PT.chainTo_cons_cons] at hch
    obtain ⟨hs, hrest⟩ := hch
    show ((PT.subAt t p).bind PT.rootVal)
        :: PT.iterVals t step (step t p) (ps2.length + 2) = _
    rw [hs, ih p2 hrest]
    rfl

theorem PT.inPaths_vals : ∀ t : PT α,
    (PT.inPaths t).map (fun p => (PT.subAt t p).bind PT.rootVal)
      = (PT.inorder t).map some := by
  intro t
  induction t with
  | leaf => rfl
  | node i v q l r ihl ihr =>
    rw [show PT.inPaths (PT.node i v q l r)
      = (PT.inPaths l).map (fun p => Dir.L :: p) ++ [[]] ++
        (PT.inPaths r).map (fun p => Dir.R :: p) from rfl]
    rw [List.map_append, List.map_append, List.map_map, List.map_map]
    have hL : ((fun p => (PT.subAt (PT.node i v q l r) p).bind PT.rootVal)
        ∘ (fun p => Dir.L :: p)) = fun p => (PT.subAt l p).bind PT.rootVal := by
      funext p
      show (PT.subAt (PT.node i v q l r) (Dir.L :: p)).bind PT.rootVal = _
      rw [PT.subAt_cons_L]
    have hR : ((fun p => (PT.subAt (PT.node i v q l r) p).bind PT.rootVal)
        ∘ (fun p => Dir.R :: p)) = fun p => (PT.subAt r p).bind PT.rootVal := by
      funext p
      show (PT.subAt (PT.node i v q l r) (Dir.R :: p)).bind PT.rootVal = _
      rw [PT.subAt_cons_R]
    rw [hL, hR, ihl, ihr]
    show (PT.inorder l).map some ++ [some v] ++ (PT.inorder r).map some
      = (PT.inorder (PT.node i v q l r)).map some
    rw [show PT.inorder (PT.node i v q l r)
      = PT.inorder l ++ v :: PT.inorder r from rfl]
    simp

theorem PT.inPaths_length (t : PT α) :
    (PT.inPaths t).length = (PT.inorder t).length := by
  have hh := congrArg List.length (PT.inPaths_vals t)
  simpa using hh

theorem PT.subAt_leftSpine : ∀ {t : PT α}, t ≠ PT.leaf →
    PT.subAt t (PT.leftSpine t) = PT.Min t := by
  intro t
  induction t with
  | leaf => intro h; exact absurd rfl h
  | node i v q l r ihl ihr =>
    intro _
    cases l with
    | leaf => rfl
    | node a b c d e =>
      show PT.subAt (PT.node i v q (PT.node a b c d e) r)
          (Dir.L :: PT.leftSpine (PT.node a b c d e)) = _
      rw [PT.subAt_cons_L, ihl (by simp)]
      rfl

theorem PT.subAt_rightSpine : ∀ {t : PT α}, t ≠ PT.leaf →
    PT.subAt t (PT.rightSpine t) = PT.Max t := by
  intro t
  induction t with
  | leaf => intro h; exact absurd rfl h
  | node i v q l r ihl ihr =>
    intro _
    cases r with
    | leaf => rfl
    | node a b c d e =>
      show PT.subAt (PT.node i v q l (PT.node a b c d e))
          (Dir.R :: PT.rightSpine (PT.node a b c d e)) = _
      rw [PT.subAt_cons_R, ihr (by simp)]
      rfl

theorem PT.max_isSome : ∀ {t : PT α}, t ≠ PT.leaf → ∃ s, PT.Max t = some s := by
  intro t
  induction t with
  | leaf => intro h; exact absurd rfl h
  | node j w q tl tr ihl ihr =>
    intro _
    cases tr with
    | leaf => exact ⟨PT.node j w q tl PT.leaf, rfl⟩
    | node a b c d e =>
      obtain ⟨s, hs⟩ := ihr (by simp)
      exact ⟨s, hs⟩

theorem PT.max_shape : ∀ {t s : PT α}, PT.Max t = some s →
    ∃ i v p l, s = PT.node i v p l PT.leaf := by
  intro t
  induction t with
  | leaf => intro s h; simp [PT.Max] at h
  | node i v pp l r ihl ihr =>
    intro s h
    cases r with
    | leaf =>
      simp only [PT.Max] at h
      exact ⟨i, v, pp, l, (Option.some_inj.mp h).symm⟩
    | node a b c d e => exact ihr h

theorem PT.leftSpine_all_L : ∀ t : PT α, ∀ d ∈ PT.leftSpine t, d = Dir.L := by
  intro t
  induction t with
  | leaf => intro d hd; simp [PT.leftSpine] at hd
  | node i v q l r ihl ihr =>
    intro d hd
    cases l with
    | leaf => simp [PT.leftSpine] at hd
    | node a b c d2 e =>
      rw [show PT.leftSpine (PT.node i v q (PT.node a b c d2 e) r)
        = Dir.L :: PT.leftSpine (PT.node a b c d2 e) from rfl] at hd
      rcases List.mem_cons.mp hd with hd | hd
      · exact hd
      · exact ihl d hd

theorem PT.rightSpine_all_R : ∀ t : PT α, ∀ d ∈ PT.rightSpine t, d = Dir.R := by
  intro t
  induction t with
  | leaf => intro d hd; simp [PT.rightSpine] at hd
  | node i v q l r ihl ihr =>
    intro d hd
    cases r with
    | leaf => simp [PT.rightSpine] at hd
    | node a b c d2 e =>
      rw [show PT.rightSpine (PT.node i v q l (PT.node a b c d2 e))
        = Dir.R :: PT.rightSpine (PT.node a b c d2 e) from rfl] at hd
      rcases List.mem_cons.mp hd with hd | hd
      · exact hd
      · exact ihr d hd

theorem PT.climbR_all_R : ∀ {xs : List Dir}, (∀ d ∈ xs, d = Dir.R) →
    PT.climbR xs = none := by
  intro xs
  induction xs with
  | nil => intro _; rfl
  | cons d xs ih =>
    intro h
    have hd : d = Dir.R := h d (List.mem_cons_self _ _)
    subst hd
    show PT.climbR xs = none
    exact ih (fun d2 hd2 => h d2 (List.mem_cons_of_mem _ hd2))

theorem PT.climbL_all_L : ∀ {xs : List Dir}, (∀ d ∈ xs, d = Dir.L) →
    PT.climbL xs = none := by
  intro xs
  induction xs with
  | nil => intro _; rfl
  | cons d xs ih =>
    intro h
    have hd : d = Dir.L := h d (List.mem_cons_self _ _)
    subst hd
    show PT.climbL xs = none
    exact ih (fun d2 hd2 => h d2 (List.mem_cons_of_mem _ hd2))

theorem PT.next_of_max {t : PT α} (hne : t ≠ PT.leaf) :
    PT.nextPath t (PT.rightSpine t) = none := by
  obtain ⟨s, hs⟩ := PT.max_isSome hne
  obtain ⟨i, v, p, l, hshape⟩ := PT.max_shape hs
  subst hshape
  have hsub : PT.subAt t (PT.rightSpine t) = some (PT.node i v p l PT.leaf) := by
    rw [PT.subAt_rightSpine hne]
    exact hs
  rw [PT.nextPath_right_leaf hsub]
  rw [PT.climbR_all_R (fun d hd =>
    PT.rightSpine_all_R t d (List.mem_reverse.mp hd))]
  rfl

theorem PT.prev_of_min {t : PT α} (hne : t ≠ PT.leaf) :
    PT.prevPath t (PT.leftSpine t) = none := by
  obtain ⟨s, hs⟩ := PT.min_isSome hne
  obtain ⟨i, v, p, r, hshape⟩ := PT.min_shape hs
  subst hshape
  have hsub : PT.subAt t (PT.leftSpine t) = some (PT.node i v p PT.leaf r) := by
    rw [PT.subAt_leftSpine hne]
    exact hs
  rw [PT.prevPath_left_leaf hsub]
  rw [PT.climbL_all_L (fun d hd =>
    PT.leftSpine_all_L t d (List.mem_reverse.mp hd))]
  rfl

/-- C5: on a non-empty tree with the BST and parent-consistency
invariants, starting at `Min()` and repeatedly taking the parent-pointer
successor `Next` visits exactly the in-order value sequence — every stored
value once, in strictly ascending comparator order — and yields nil after
the maximum; symmetrically, starting at `Max()` and repeatedly taking
`Prev` visits every value once in strictly descending order and yields nil
after the minimum. -/
theorem claim_C5 {α : Type} {less : α → α → Bool} (hL : LessOK less)
    {T : GoTree α} (hb : PT.isBST less T.root = true)
    (hp : PT.parentOK none T.root = true) (hne : T.root ≠ PT.leaf) :
    GoTree.Min T = PT.subAt T.root (PT.leftSpine T.root) ∧
    PT.iterVals T.root PT.nextPath (some (PT.leftSpine T.root))
        ((PT.inorder T.root).length + 1)
      = (PT.inorder T.root).map some ∧
    PT.nextPath T.root (PT.rightSpine T.root) = none ∧
    List.Pairwise (fun a b => less a b = true) (PT.inorder T.root) ∧
    GoTree.Max T = PT.subAt T.root (PT.rightSpine T.root) ∧
    PT.iterVals T.root PT.prevPath (some (PT.rightSpine T.root))
        ((PT.inorder T.root).length + 1)
      = ((PT.inorder T.root).reverse).map some ∧
    PT.prevPath T.root (PT.leftSpine T.root) = none := by
  obtain ⟨rest, hip⟩ : ∃ rest, PT.inPaths T.root = PT.leftSpine T.root :: rest := by
    cases hip : PT.inPaths T.root with
    | nil =>
      cases htr : T.root with
      | leaf => exact absurd htr hne
      | node a b c d e =>
        rw [htr] at hip
        exact absurd hip PT.inPaths_ne_nil
    | cons x xs =>
      have hh := PT.head_inPaths hne
      rw [hip] at hh
      simp only [List.head?_cons, Option.some_inj] at hh
      exact ⟨xs, by rw [hh]⟩
  obtain ⟨rest2, hip2⟩ : ∃ rest2, (PT.inPaths T.root).reverse
      = PT.rightSpine T.root :: rest2 := by
    cases hip2 : (PT.inPaths T.root).reverse with
    | nil =>
      have hnil : PT.inPaths T.root = [] := by
        have hh := congrArg List.reverse hip2
        rwa [List.reverse_reverse] at hh
      rw [hip] at hnil
      exact absurd hnil (by simp)
    | cons x xs =>
      have hh : ((PT.inPaths T.root).reverse).head?
          = some (PT.rightSpine T.root) := by
        rw [List.head?_reverse]
        exact PT.getLast_inPaths hne
      rw [hip2] at hh
      simp only [List.head?_cons, Option.some_inj] at hh
      exact ⟨xs, by rw [hh]⟩
  have hlen : (PT.inorder T.root).length + 1 = rest.length + 2 := by
    have hh := PT.inPaths_length T.root
    rw [hip] at hh
    simp only [List.length_cons] at hh
    omega
  have hlen2 : (PT.inorder T.root).length + 1 = rest2.length + 2 := by
    have hh := PT.inPaths_length T.root
    have hh2 := congrArg List.length hip2
    simp only [List.length_reverse, List.length_cons] at hh2
    omega
  have hchainN := PT.chain_next T.root
  rw [hip] at hchainN
  have hchainP := PT.chain_prev T.root
  rw [hip2] at hchainP
  refine ⟨?_, ?_, PT.next_of_max hne, PT.pairwise_inorder hL.lt_trans hb, ?_, ?_,
    PT.prev_of_min hne⟩
  · show PT.Min T.root = _
    rw [PT.subAt_leftSpine hne]
  · rw [hlen, PT.iterVals_chain rest _ hchainN, ← hip, PT.inPaths_vals]
  · show PT.Max T.root = _
    rw [PT.subAt_rightSpine hne]
  · rw [hlen2, PT.iterVals_chain rest2 _ hchainP, ← hip2]
    rw [List.map_reverse, PT.inPaths_vals, List.map_reverse]

/-- Witness for C5 on the first fixture. -/
theorem claim_C5_witness :
    GoTree.Min exT1 = PT.subAt exT1.root (PT.leftSpine exT1.root) ∧
    PT.iterVals exT1.root PT.nextPath (some (PT.leftSpine exT1.root))
        ((PT.inorder exT1.root).length + 1)
      = (PT.inorder exT1.root).map some ∧
    PT.nextPath exT1.root (PT.rightSpine exT1.root) = none ∧
    List.Pairwise (fun a b => ltInt a b = true) (PT.inorder exT1.root) ∧
    GoTree.Max exT1 = PT.subAt exT1.root (PT.rightSpine exT1.root) ∧
    PT.iterVals exT1.root PT.prevPath (some (PT.rightSpine exT1.root))
        ((PT.inorder exT1.root).length + 1)
      = ((PT.inorder exT1.root).reverse).map some ∧
    PT.prevPath exT1.root (PT.leftSpine exT1.root) = none :=
  claim_C5 lessOK_ltInt (by decide) (by decide) (by decide)
